import Mathlib

set_option maxHeartbeats 1000000

/-!
Verification of the AutoChip module/test-case extraction scripts.

The development shallowly embeds the three Python scripts
(`extract_modules.py`, `extract_testcases.py`, `validate_schema.py`):
JSON values are an inductive type, Python dicts are association lists,
the mutable `visited` sets are threaded explicitly, file I/O is an
explicit file-system map, and the unbounded cross-file recursion of the
`$ref` resolver is modelled with explicit fuel (running out of fuel is a
distinguished error that models non-termination).
-/

namespace AutoChip

/-- JSON values, as produced by Python's `json.load` (numbers restricted to
integers, which is all the repository's documents use). -/
inductive Json where
  | null : Json
  | bool : Bool → Json
  | num : Int → Json
  | str : String → Json
  | arr : List Json → Json
  | obj : List (String × Json) → Json

mutual
/-- Structural equality of JSON values (Python `==` on values produced by
`json.load`). -/
def jsonBEq : Json → Json → Bool
  | .null, .null => true
  | .bool a, .bool b => a == b
  | .num a, .num b => a == b
  | .str a, .str b => a == b
  | .arr a, .arr b => jsonBEqList a b
  | .obj a, .obj b => jsonBEqFields a b
  | _, _ => false

def jsonBEqList : List Json → List Json → Bool
  | [], [] => true
  | x :: xs, y :: ys => jsonBEq x y && jsonBEqList xs ys
  | _, _ => false

def jsonBEqFields : List (String × Json) → List (String × Json) → Bool
  | [], [] => true
  | (k, v) :: xs, (k2, v2) :: ys => k == k2 && jsonBEq v v2 && jsonBEqFields xs ys
  | _, _ => false
end

mutual
theorem jsonBEq_iff : ∀ a b : Json, jsonBEq a b = true ↔ a = b
  | .null, b => by cases b <;> simp [jsonBEq]
  | .bool x, b => by cases b <;> simp [jsonBEq]
  | .num x, b => by cases b <;> simp [jsonBEq]
  | .str x, b => by cases b <;> simp [jsonBEq]
  | .arr l, b => by
      cases b <;> simp [jsonBEq]
      exact jsonBEqList_iff l _
  | .obj f, b => by
      cases b <;> simp [jsonBEq]
      exact jsonBEqFields_iff f _

theorem jsonBEqList_iff : ∀ a b : List Json, jsonBEqList a b = true ↔ a = b
  | [], b => by cases b <;> simp [jsonBEqList]
  | x :: xs, b => by
      cases b <;> simp [jsonBEqList]
      rw [jsonBEq_iff, jsonBEqList_iff]

theorem jsonBEqFields_iff :
    ∀ a b : List (String × Json), jsonBEqFields a b = true ↔ a = b
  | [], b => by cases b <;> simp [jsonBEqFields]
  | (k, v) :: xs, b => by
      cases b with
      | nil => simp [jsonBEqFields]
      | cons y ys =>
        obtain ⟨k2, v2⟩ := y
        simp [jsonBEqFields]
        rw [jsonBEq_iff, jsonBEqFields_iff]
end

instance : DecidableEq Json := fun a b =>
  decidable_of_iff (jsonBEq a b = true) (jsonBEq_iff a b)

/-- Dictionary lookup (`d[k]` / `k in d` / `d.get(k)`); Python dicts have
unique keys, so first-match association-list lookup is faithful. -/
def lookupKey : List (String × Json) → String → Option Json
  | [], _ => none
  | (k, v) :: rest, key => if k = key then some v else lookupKey rest key

/-- `d.get(k, default)`. -/
def getKeyD (fields : List (String × Json)) (key : String) (dflt : Json) : Json :=
  (lookupKey fields key).getD dflt

theorem sizeOf_lookupKey {fields : List (String × Json)} {key : String} {v : Json}
    (h : lookupKey fields key = some v) : sizeOf v < sizeOf fields := by
  induction fields with
  | nil => simp [lookupKey] at h
  | cons kv rest ih =>
    obtain ⟨k, w⟩ := kv
    by_cases hk : k = key
    · simp [lookupKey, hk] at h
      subst h
      simp
      omega
    · simp [lookupKey, hk] at h
      have := ih h
      simp
      omega

/-- Python truthiness (`bool(x)`) of JSON-derived values. -/
def pyTruthy : Json → Bool
  | .null => false
  | .bool b => b
  | .num n => n != 0
  | .str s => !s.isEmpty
  | .arr l => !l.isEmpty
  | .obj l => !l.isEmpty

mutual
/-- Python `repr` of JSON-derived values (used by `str` inside containers). -/
def pyRepr : Json → String
  | .null => "None"
  | .bool true => "True"
  | .bool false => "False"
  | .num n => toString n
  | .str s => "\x27" ++ s ++ "\x27"
  | .arr l => "[" ++ pyReprList l ++ "]"
  | .obj fields => "\x7b" ++ pyReprFields fields ++ "\x7d"

def pyReprList : List Json → String
  | [] => ""
  | [x] => pyRepr x
  | x :: y :: rest => pyRepr x ++ ", " ++ pyReprList (y :: rest)

def pyReprFields : List (String × Json) → String
  | [] => ""
  | [(k, v)] => "\x27" ++ k ++ "\x27: " ++ pyRepr v
  | (k, v) :: kv :: rest =>
      "\x27" ++ k ++ "\x27: " ++ pyRepr v ++ ", " ++ pyReprFields (kv :: rest)
end

/-- Python `str(x)` of a JSON-derived value, as used by f-string interpolation:
the identity on strings, `repr`-style rendering otherwise. -/
def pyStr : Json → String
  | .str s => s
  | .null => pyRepr .null
  | .bool b => pyRepr (.bool b)
  | .num n => pyRepr (.num n)
  | .arr l => pyRepr (.arr l)
  | .obj fields => pyRepr (.obj fields)

/-! ## extract_modules (extract_modules.py lines 76-128) -/

/-- The record built for each module by `extract_modules`.  Values coming
straight out of the document keep type `Json`; `full_path` is `Json` because
at the root level the Python code stores `data[\x27name\x27]` itself (only a
child's full name is an f-string result). -/
structure ModuleInfo where
  name : Json
  filepath : Json
  docpath : Json
  parent : Option Json
  full_path : Json
  has_test : Bool
  has_submodules : Bool
deriving DecidableEq

/-- `full_name = f"\x7bparent_name\x7d/\x7bmodule_name\x7d" if parent_name
else module_name` (extract_modules.py line 98). -/
def fullNameOf (parent_name nm : Json) : Json :=
  if pyTruthy parent_name then .str (pyStr parent_name ++ "/" ++ pyStr nm) else nm

/-- The `module_info` record built at extract_modules.py lines 102-110. -/
def emInfo (fields : List (String × Json)) (parent_name nm : Json) : ModuleInfo :=
  { name := nm
    filepath := getKeyD fields "filepath" (.str "")
    docpath := getKeyD fields "docpath" (.str "")
    parent := if pyTruthy parent_name then some parent_name else none
    full_path := fullNameOf parent_name nm
    has_test := (lookupKey fields "test").isSome
    has_submodules :=
      match lookupKey fields "submodules" with
      | some v => pyTruthy v
      | none => false }

mutual
/-- `extract_modules(data, parent_name, visited)` (extract_modules.py lines
76-128).  The mutable `visited` set is threaded explicitly: the result pairs
the returned module list with the final contents of `visited`. -/
def extract_modules (data : Json) (parent_name : Json) (visited : List Json) :
    List ModuleInfo × List Json :=
  match data with
  | .obj fields =>
    match lookupKey fields "name", lookupKey fields "filepath",
          lookupKey fields "docpath" with
    | some nm, some _fp, some _dp =>
      let full_name := fullNameOf parent_name nm
      if full_name ∈ visited then ([], visited)
      else
        let info : ModuleInfo := emInfo fields parent_name nm
        match hsub : lookupKey fields "submodules" with
        | some subs =>
          if pyTruthy subs then
            match subs with
            | .arr items =>
              let r := extract_modules_list items full_name (full_name :: visited)
              (info :: r.1, r.2)
            | .obj sfields =>
              let r := extract_modules (.obj sfields) full_name (full_name :: visited)
              (info :: r.1, r.2)
            | _ => ([info], full_name :: visited)
          else ([info], full_name :: visited)
        | none => ([info], full_name :: visited)
    | _, _, _ => ([], visited)
  | _ => ([], visited)
termination_by sizeOf data
decreasing_by
  · have h1 := sizeOf_lookupKey hsub
    simp at h1 ⊢
    omega
  · have h1 := sizeOf_lookupKey hsub
    simp at h1 ⊢
    omega

/-- The `for submodule in submodules: if isinstance(submodule, dict): ...`
loop (extract_modules.py lines 117-122). -/
def extract_modules_list (items : List Json) (parent_name : Json)
    (visited : List Json) : List ModuleInfo × List Json :=
  match items with
  | [] => ([], visited)
  | item :: rest =>
    match item with
    | .obj ifields =>
      let r := extract_modules (.obj ifields) parent_name visited
      let r2 := extract_modules_list rest parent_name r.2
      (r.1 ++ r2.1, r2.2)
    | _ => extract_modules_list rest parent_name visited
termination_by sizeOf items
decreasing_by
  all_goals simp
  all_goals omega
end

/-! ## extract_testcases (extract_testcases.py lines 76-137) -/

/-- The record built for each test case by `extract_testcases`.  Fields keep
the `Json` values the Python code stores. -/
structure TestCaseInfo where
  module : Json
  module_path : Json
  test_name : Json
  runCmd : Json
  output_log_path : Json
  output_wave_path : Json
  testbench_path : Json
  golden_model_path : Json
deriving DecidableEq

/-- One iteration of the `for idx, tc in enumerate(test_case_list)` loop body
(extract_testcases.py lines 109-118), for a dict entry `tc`. -/
def mkTestcase (nm m tb gm : Json) (idx : Nat) (tfs : List (String × Json)) :
    TestCaseInfo :=
  { module := nm
    module_path := m
    test_name := getKeyD tfs "name" (.str ("test_" ++ toString idx))
    runCmd := getKeyD tfs "run_cmd" (.str "")
    output_log_path := getKeyD tfs "output_log_path" (.arr [])
    output_wave_path := getKeyD tfs "output_wave_path" .null
    testbench_path := tb
    golden_model_path := gm }

/-- The `for idx, tc in enumerate(test_case_list)` loop (extract_testcases.py
lines 107-119): every entry consumes an index, only dict entries emit a
record. -/
def emitTestcases (tcs : List Json) (idx : Nat) (nm m tb gm : Json) :
    List TestCaseInfo :=
  match tcs with
  | [] => []
  | tc :: rest =>
    match tc with
    | .obj tfs => mkTestcase nm m tb gm idx tfs :: emitTestcases rest (idx + 1) nm m tb gm
    | _ => emitTestcases rest (idx + 1) nm m tb gm

/-- The test-case emission block for one module node (extract_testcases.py
lines 102-119): `test_config = data.get(\x27test\x27)`, the truthiness and
shape checks, and the enumeration of `test_case`. -/
def testcasesOf (fields : List (String × Json)) (nm m : Json) :
    List TestCaseInfo :=
  match lookupKey fields "test" with
  | some tcfg =>
    if pyTruthy tcfg then
      match tcfg with
      | .obj tfields =>
        if pyTruthy (getKeyD tfields "test_case" (.arr [])) then
          match getKeyD tfields "test_case" (.arr []) with
          | .arr tcs =>
              emitTestcases tcs 0 nm m (getKeyD tfields "testbench_path" (.str ""))
                (getKeyD tfields "golden_model_path" (.str ""))
          | _ => []
        else []
      | _ => []
    else []
  | none => []

mutual
/-- `extract_testcases(data, module_name, visited)` (extract_testcases.py
lines 76-137), with the mutable `visited` set threaded explicitly. -/
def extract_testcases (data : Json) (module_name : Json) (visited : List Json) :
    List TestCaseInfo × List Json :=
  match data with
  | .obj fields =>
    match lookupKey fields "name" with
    | some nm =>
      if nm ∈ visited then ([], visited)
      else
        let visited1 := nm :: visited
        let own := testcasesOf fields nm module_name
        match hsub : lookupKey fields "submodules" with
        | some subs =>
          if pyTruthy subs then
            match subs with
            | .arr items =>
              let r := extract_testcases_list items (fullNameOf module_name nm) visited1
              (own ++ r.1, r.2)
            | .obj sfields =>
              let r := extract_testcases (.obj sfields) (fullNameOf module_name nm) visited1
              (own ++ r.1, r.2)
            | _ => (own, visited1)
          else (own, visited1)
        | none => (own, visited1)
    | none => ([], visited)
  | _ => ([], visited)
termination_by sizeOf data
decreasing_by
  · have h1 := sizeOf_lookupKey hsub
    simp at h1 ⊢
    omega
  · have h1 := sizeOf_lookupKey hsub
    simp at h1 ⊢
    omega

/-- The `for submodule in submodules: if isinstance(submodule, dict): ...`
loop (extract_testcases.py lines 124-130). -/
def extract_testcases_list (items : List Json) (module_name : Json)
    (visited : List Json) : List TestCaseInfo × List Json :=
  match items with
  | [] => ([], visited)
  | item :: rest =>
    match item with
    | .obj ifields =>
      let r := extract_testcases (.obj ifields) module_name visited
      let r2 := extract_testcases_list rest module_name r.2
      (r.1 ++ r2.1, r2.2)
    | _ => extract_testcases_list rest module_name visited
termination_by sizeOf items
decreasing_by
  all_goals simp
  all_goals omega
end

/-! ## The $ref resolver (load_json_with_refs, extract_modules.py lines 26-73)

Paths are lists of segments.  `Path` arithmetic (`current_base / ref_path`)
followed by the OS-level resolution performed by `exists()`/`open()` is
modelled by lexical normalisation: `.` segments are dropped and `..` pops the
last segment.  The file system is a map from normalised paths to parsed JSON
documents (file reading and JSON parsing are primitives here; every file in
the map is well-formed JSON).  The Python recursion across files is unbounded,
so it is modelled with fuel: `RErr.fuelOut` is the distinguished outcome that
models non-termination, every other outcome models a Python result or
exception. -/

/-- `s.startswith(pre)`: prefix test, phrased over the character lists so that
it evaluates by kernel reduction. -/
def strStartsWith (s pre : String) : Bool := pre.data.isPrefixOf s.data

/-- Split a character list at a separator. -/
def splitChars (sep : Char) : List Char → List (List Char)
  | [] => [[]]
  | c :: rest =>
    let r := splitChars sep rest
    if c = sep then [] :: r
    else
      match r with
      | [] => [[c]]
      | g :: gs => (c :: g) :: gs

/-- Split a string on `/` (the segment structure `pathlib` sees). -/
def splitOnSlash (s : String) : List String :=
  (splitChars (Char.ofNat 47) s.data).map (fun cs => String.mk cs)

/-- A file-system path, as a list of segments. -/
abbrev FPath := List String

/-- A file system: parsed JSON documents keyed by normalised path. -/
abbrev FileSys := List (FPath × Json)

def lookupFS : FileSys → FPath → Option Json
  | [], _ => none
  | (p, d) :: rest, q => if p = q then some d else lookupFS rest q

/-- `current_base / ref_path`, with `.` and `..` segments resolved the way
`exists()`/`open()` resolve them. -/
def joinPath (base : FPath) (ref : String) : FPath :=
  (splitOnSlash ref).foldl
    (fun acc seg =>
      if seg = "." || seg = "" then acc
      else if seg = ".." then acc.dropLast
      else acc ++ [seg])
    base

/-- `p.parent`. -/
def dirOf (p : FPath) : FPath := p.dropLast

/-- Outcomes of resolution other than success: `fileNotFound` models the
`FileNotFoundError` raised for a missing referenced file (carrying the path it
names), `attrError` models the `AttributeError` raised by
`ref_path.startswith` when a `$ref` value is not a string, and `fuelOut`
models non-termination of the unbounded Python recursion. -/
inductive RErr where
  | fileNotFound : FPath → RErr
  | attrError : RErr
  | fuelOut : RErr
deriving DecidableEq

mutual
/-- `resolve_refs(obj, current_base)` (extract_modules.py lines 43-71).  Fuel
is consumed exactly when recursion moves into a referenced file. -/
def resolve_refs (fs : FileSys) (fuel : Nat) (obj : Json) (current_base : FPath) :
    Except RErr Json :=
  match obj with
  | .obj fields =>
    match lookupKey fields "$ref" with
    | some refv =>
      match refv with
      | .str ref_path =>
        if strStartsWith ref_path "./" || strStartsWith ref_path "../" then
          let ref_file := joinPath current_base ref_path
          match lookupFS fs ref_file with
          | none => .error (.fileNotFound ref_file)
          | some ref_data =>
            match fuel with
            | 0 => .error .fuelOut
            | n + 1 => resolve_refs fs n ref_data (dirOf ref_file)
        else .ok (.obj fields)
      | _ => .error .attrError
    | none =>
      match resolve_fields fs fuel fields current_base with
      | .ok fields2 => .ok (.obj fields2)
      | .error e => .error e
  | .arr l =>
    match resolve_list fs fuel l current_base with
    | .ok l2 => .ok (.arr l2)
    | .error e => .error e
  | v => .ok v
termination_by (fuel, sizeOf obj)

/-- The dict comprehension `{k: resolve_refs(v, current_base) ...}` (line 66),
with the exception propagation of the surrounding call. -/
def resolve_fields (fs : FileSys) (fuel : Nat) (fields : List (String × Json))
    (current_base : FPath) : Except RErr (List (String × Json)) :=
  match fields with
  | [] => .ok []
  | (k, v) :: rest =>
    match resolve_refs fs fuel v current_base with
    | .error e => .error e
    | .ok v2 =>
      match resolve_fields fs fuel rest current_base with
      | .error e => .error e
      | .ok rest2 => .ok ((k, v2) :: rest2)
termination_by (fuel, sizeOf fields)

/-- The list comprehension `[resolve_refs(item, current_base) ...]` (line 69),
with the exception propagation of the surrounding call. -/
def resolve_list (fs : FileSys) (fuel : Nat) (l : List Json)
    (current_base : FPath) : Except RErr (List Json) :=
  match l with
  | [] => .ok []
  | v :: rest =>
    match resolve_refs fs fuel v current_base with
    | .error e => .error e
    | .ok v2 =>
      match resolve_list fs fuel rest current_base with
      | .error e => .error e
      | .ok rest2 => .ok (v2 :: rest2)
termination_by (fuel, sizeOf l)
end

instance : DecidableEq (Except RErr Json) := fun a b =>
  match a, b with
  | .ok x, .ok y => decidable_of_iff (x = y) (by simp)
  | .error e, .error e2 => decidable_of_iff (e = e2) (by simp)
  | .ok _, .error _ => isFalse (by simp)
  | .error _, .ok _ => isFalse (by simp)

/-- `load_json_with_refs(file_path)` (extract_modules.py lines 26-73): opens
the root file (raising `FileNotFoundError` if missing) and resolves it with
its own directory as base. -/
def load_json_with_refs (fs : FileSys) (fuel : Nat) (file_path : FPath) :
    Except RErr Json :=
  match lookupFS fs file_path with
  | none => .error (.fileNotFound file_path)
  | some data => resolve_refs fs fuel data (dirOf file_path)

/-- Is this mapping a relative-reference node: does it have a `$ref` key whose
string value begins with `./` or `../` (the claims' notion of a
relative-reference node)? -/
def isRelRefNode (fields : List (String × Json)) : Bool :=
  match lookupKey fields "$ref" with
  | some (.str s) => strStartsWith s "./" || strStartsWith s "../"
  | _ => false

mutual
/-- Does the value contain, anywhere, a mapping with a `$ref` key whose value
begins with `./` or `../`? -/
def hasRelRef : Json → Bool
  | .obj fields => isRelRefNode fields || hasRelRefFields fields
  | .arr l => hasRelRefList l
  | _ => false

def hasRelRefList : List Json → Bool
  | [] => false
  | v :: rest => hasRelRef v || hasRelRefList rest

def hasRelRefFields : List (String × Json) → Bool
  | [] => false
  | (_, v) :: rest => hasRelRef v || hasRelRefFields rest
end

mutual
/-- A value is clean when it contains no relative-reference node outside the
subtrees of opaque reference nodes: a mapping carrying a `$ref` key must not
be a relative reference, and is otherwise exempted wholesale (the resolver
returns opaque reference nodes verbatim); every other value is traversed. -/
def cleanJson : Json → Bool
  | .obj fields =>
    match lookupKey fields "$ref" with
    | some _ => !isRelRefNode fields
    | none => cleanFields fields
  | .arr l => cleanList l
  | _ => true

def cleanList : List Json → Bool
  | [] => true
  | v :: rest => cleanJson v && cleanList rest

def cleanFields : List (String × Json) → Bool
  | [] => true
  | (_, v) :: rest => cleanJson v && cleanFields rest
end

mutual
/-- The referenced-file paths the resolver would follow from a value: the
target of a relative reference node, or the union over children of a plain
mapping or sequence (resolved against `base`, which only changes when the
resolver moves into another file). -/
def refPaths : Json → FPath → List FPath
  | .obj fields, base =>
    match lookupKey fields "$ref" with
    | some (.str s) =>
      if strStartsWith s "./" || strStartsWith s "../" then [joinPath base s] else []
    | some _ => []
    | none => refPathsFields fields base
  | .arr l, base => refPathsList l base
  | _, _ => []

def refPathsList : List Json → FPath → List FPath
  | [], _ => []
  | v :: rest, base => refPaths v base ++ refPathsList rest base

def refPathsFields : List (String × Json) → FPath → List FPath
  | [], _ => []
  | (_, v) :: rest, base => refPaths v base ++ refPathsFields rest base
end

/-! ## validate_json (validate_schema.py lines 83-127)

The adapter's effectful steps (opening and parsing the schema file, loading
the document raw or through the reference resolver, and invoking the external
`jsonschema` engine) are modelled as oracles that either produce a value or
throw one of the Python exception kinds the `except` clauses distinguish. -/

/-- The exceptions the `try` block of `validate_json` can observe, in the
order of its `except` clauses: `FileNotFoundError`, `json.JSONDecodeError`,
`jsonschema.ValidationError` (carrying `e.path` and `e.message`), and any
other `Exception`. -/
inductive PyExc where
  | fileNotFound : String → PyExc
  | jsonDecode : String → PyExc
  | validationErr : List Json → String → PyExc
  | otherExc : String → PyExc
deriving DecidableEq

/-- `\x27 -> \x27.join(str(p) for p in e.path) if e.path else \x27root\x27`
(validate_schema.py line 124). -/
def validationPath (path : List Json) : String :=
  if path.isEmpty then "root" else String.intercalate " -> " (path.map pyStr)

/-- `validate_json(schema_path, json_path, resolve_refs)` (validate_schema.py
lines 83-127).  `schemaLoad` is the result of opening and parsing the schema,
`refLoad`/`rawLoad` the two ways of loading the document, and `engine` the
external validation engine (resolver construction included), an arbitrary
oracle that may throw anything.  The result is the `(is_valid, error_message)`
pair the Python function returns. -/
def validate_json (schemaLoad refLoad rawLoad : Except PyExc Json)
    (engine : Json → Json → Except PyExc Unit) (resolveRefsFlag : Bool)
    (json_path : String) : Bool × Option String :=
  let run : Except PyExc Unit := do
    let schema ← schemaLoad
    let data ← if resolveRefsFlag then refLoad else rawLoad
    engine schema data
  match run with
  | .ok _ => (true, none)
  | .error (.fileNotFound m) => (false, some ("File not found: " ++ m))
  | .error (.jsonDecode m) =>
      (false, some ("Invalid JSON format in " ++ json_path ++ ": " ++ m))
  | .error (.validationErr path msg) =>
      (false, some ("Validation error at \x27" ++ validationPath path ++ "\x27: " ++ msg))
  | .error (.otherExc m) => (false, some ("Unexpected error: " ++ m))

/-! ## Step equations for extract_modules -/

theorem em_eq_dup {fields : List (String × Json)} {p : Json} {v : List Json}
    {nm _fp _dp : Json}
    (hname : lookupKey fields "name" = some nm)
    (hfile : lookupKey fields "filepath" = some _fp)
    (hdoc : lookupKey fields "docpath" = some _dp)
    (hmem : fullNameOf p nm ∈ v) :
    extract_modules (.obj fields) p v = ([], v) := by
  rw [extract_modules.eq_def]
  simp only [hname, hfile, hdoc, hmem, if_pos]

theorem em_eq_arr {fields : List (String × Json)} {p : Json} {v : List Json}
    {nm _fp _dp : Json} {items : List Json}
    (hname : lookupKey fields "name" = some nm)
    (hfile : lookupKey fields "filepath" = some _fp)
    (hdoc : lookupKey fields "docpath" = some _dp)
    (hnot : fullNameOf p nm ∉ v)
    (hsub : lookupKey fields "submodules" = some (.arr items))
    (htr : pyTruthy (.arr items) = true) :
    extract_modules (.obj fields) p v =
      (emInfo fields p nm ::
        (extract_modules_list items (fullNameOf p nm) (fullNameOf p nm :: v)).1,
       (extract_modules_list items (fullNameOf p nm) (fullNameOf p nm :: v)).2) := by
  rw [extract_modules.eq_def]
  simp only [hname, hfile, hdoc]
  rw [if_neg hnot]
  split
  · rename_i subs heq
    rw [hsub] at heq
    injection heq with heq2
    subst heq2
    rw [if_pos htr]
  · rename_i heq
    rw [hsub] at heq
    exact Option.noConfusion heq

theorem em_eq_objsub {fields : List (String × Json)} {p : Json} {v : List Json}
    {nm _fp _dp : Json} {sfields : List (String × Json)}
    (hname : lookupKey fields "name" = some nm)
    (hfile : lookupKey fields "filepath" = some _fp)
    (hdoc : lookupKey fields "docpath" = some _dp)
    (hnot : fullNameOf p nm ∉ v)
    (hsub : lookupKey fields "submodules" = some (.obj sfields))
    (htr : pyTruthy (.obj sfields) = true) :
    extract_modules (.obj fields) p v =
      (emInfo fields p nm ::
        (extract_modules (.obj sfields) (fullNameOf p nm) (fullNameOf p nm :: v)).1,
       (extract_modules (.obj sfields) (fullNameOf p nm) (fullNameOf p nm :: v)).2) := by
  rw [extract_modules.eq_def]
  simp only [hname, hfile, hdoc]
  rw [if_neg hnot]
  split
  · rename_i subs heq
    rw [hsub] at heq
    injection heq with heq2
    subst heq2
    rw [if_pos htr]
  · rename_i heq
    rw [hsub] at heq
    exact Option.noConfusion heq

theorem em_eq_leafsub {fields : List (String × Json)} {p : Json} {v : List Json}
    {nm _fp _dp subs : Json}
    (hname : lookupKey fields "name" = some nm)
    (hfile : lookupKey fields "filepath" = some _fp)
    (hdoc : lookupKey fields "docpath" = some _dp)
    (hnot : fullNameOf p nm ∉ v)
    (hsub : lookupKey fields "submodules" = some subs)
    (hshape : (∀ items, subs ≠ .arr items) ∧ ∀ sfields, subs ≠ .obj sfields) :
    extract_modules (.obj fields) p v = ([emInfo fields p nm], fullNameOf p nm :: v) := by
  rw [extract_modules.eq_def]
  simp only [hname, hfile, hdoc]
  rw [if_neg hnot]
  split
  · rename_i subs2 heq
    rw [hsub] at heq
    injection heq with heq2
    subst heq2
    by_cases htr : pyTruthy subs = true
    · rw [if_pos htr]
      cases subs with
      | arr items => exact (hshape.1 items rfl).elim
      | obj sfields => exact (hshape.2 sfields rfl).elim
      | null => rfl
      | bool b => rfl
      | num n => rfl
      | str s => rfl
    · rw [if_neg htr]
  · rename_i heq
    rw [hsub] at heq

theorem em_eq_falsysub {fields : List (String × Json)} {p : Json} {v : List Json}
    {nm _fp _dp subs : Json}
    (hname : lookupKey fields "name" = some nm)
    (hfile : lookupKey fields "filepath" = some _fp)
    (hdoc : lookupKey fields "docpath" = some _dp)
    (hnot : fullNameOf p nm ∉ v)
    (hsub : lookupKey fields "submodules" = some subs)
    (hntr : ¬pyTruthy subs = true) :
    extract_modules (.obj fields) p v = ([emInfo fields p nm], fullNameOf p nm :: v) := by
  rw [extract_modules.eq_def]
  simp only [hname, hfile, hdoc]
  rw [if_neg hnot]
  split
  · rename_i subs2 heq
    rw [hsub] at heq
    injection heq with heq2
    subst heq2
    rw [if_neg hntr]
  · rename_i heq
    rw [hsub] at heq

theorem em_eq_nosub {fields : List (String × Json)} {p : Json} {v : List Json}
    {nm _fp _dp : Json}
    (hname : lookupKey fields "name" = some nm)
    (hfile : lookupKey fields "filepath" = some _fp)
    (hdoc : lookupKey fields "docpath" = some _dp)
    (hnot : fullNameOf p nm ∉ v)
    (hsub : lookupKey fields "submodules" = none) :
    extract_modules (.obj fields) p v = ([emInfo fields p nm], fullNameOf p nm :: v) := by
  rw [extract_modules.eq_def]
  simp only [hname, hfile, hdoc]
  rw [if_neg hnot]
  split
  · rename_i subs2 heq
    rw [hsub] at heq
    exact Option.noConfusion heq
  · rfl

theorem em_eq_notmod {fields : List (String × Json)} {p : Json} {v : List Json}
    (hmiss : lookupKey fields "name" = none ∨ lookupKey fields "filepath" = none ∨
      lookupKey fields "docpath" = none) :
    extract_modules (.obj fields) p v = ([], v) := by
  rcases hn : lookupKey fields "name" with _ | nm
  · rw [extract_modules.eq_def]
    simp only [hn]
  · rcases hf : lookupKey fields "filepath" with _ | fp
    · rw [extract_modules.eq_def]
      simp only [hn, hf]
    · rcases hd : lookupKey fields "docpath" with _ | dp
      · rw [extract_modules.eq_def]
        simp only [hn, hf, hd]
      · rcases hmiss with h | h | h <;> simp_all

theorem em_eq_nonobj {d p : Json} {v : List Json}
    (hno : ∀ fields, d ≠ .obj fields) :
    extract_modules d p v = ([], v) := by
  cases d with
  | obj fields => exact (hno fields rfl).elim
  | null => rw [extract_modules.eq_def]
  | bool b => rw [extract_modules.eq_def]
  | num n => rw [extract_modules.eq_def]
  | str s => rw [extract_modules.eq_def]
  | arr l => rw [extract_modules.eq_def]

theorem eml_eq_nil {p : Json} {v : List Json} :
    extract_modules_list [] p v = ([], v) := by
  rw [extract_modules_list.eq_def]

theorem eml_eq_obj {ifields : List (String × Json)} {rest : List Json} {p : Json}
    {v : List Json} :
    extract_modules_list (.obj ifields :: rest) p v =
      ((extract_modules (.obj ifields) p v).1 ++
        (extract_modules_list rest p (extract_modules (.obj ifields) p v).2).1,
       (extract_modules_list rest p (extract_modules (.obj ifields) p v).2).2) := by
  rw [extract_modules_list.eq_def]

theorem eml_eq_skip {item : Json} {rest : List Json} {p : Json} {v : List Json}
    (hno : ∀ fields, item ≠ .obj fields) :
    extract_modules_list (item :: rest) p v = extract_modules_list rest p v := by
  cases item with
  | obj fields => exact (hno fields rfl).elim
  | null => rw [extract_modules_list.eq_def]
  | bool b => rw [extract_modules_list.eq_def]
  | num n => rw [extract_modules_list.eq_def]
  | str s => rw [extract_modules_list.eq_def]
  | arr l => rw [extract_modules_list.eq_def]

/-! ## Invariants of extract_modules -/

/-- Full paths of a list of module records, in emission order. -/
def pathsOf (out : List ModuleInfo) : List Json := out.map ModuleInfo.full_path

/-- The dedup invariant relating an output list to the `visited` set before
(`v0`) and after (`v1`) a traversal: traversal pushes exactly the emitted full
paths onto `visited`, emits no full path that was already visited, and emits
no full path twice. -/
def EmP (out : List ModuleInfo) (v0 v1 : List Json) : Prop :=
  v1 = (pathsOf out).reverse ++ v0 ∧
  (∀ m ∈ out, m.full_path ∉ v0) ∧
  (pathsOf out).Nodup

theorem EmP_nil (v : List Json) : EmP [] v v := by
  simp [EmP, pathsOf]

theorem EmP_cons {head : ModuleInfo} {out : List ModuleInfo} {v0 v1 : List Json}
    (hfn : head.full_path ∉ v0) (hout : EmP out (head.full_path :: v0) v1) :
    EmP (head :: out) v0 v1 := by
  obtain ⟨ha, hb, hc⟩ := hout
  refine ⟨?_, ?_, ?_⟩
  · simp [pathsOf] at ha ⊢
    simp [ha]
  · intro m hm
    rcases List.mem_cons.1 hm with hm | hm
    · rw [hm]
      exact hfn
    · exact fun hv => (hb m hm) (List.mem_cons_of_mem _ hv)
  · simp [pathsOf] at hc ⊢
    refine ⟨?_, hc⟩
    intro m hm hfp
    exact (hb m hm) (by simp [hfp])

theorem EmP_append {o1 o2 : List ModuleInfo} {v0 vm v1 : List Json}
    (h1 : EmP o1 v0 vm) (h2 : EmP o2 vm v1) : EmP (o1 ++ o2) v0 v1 := by
  obtain ⟨ha1, hb1, hc1⟩ := h1
  obtain ⟨ha2, hb2, hc2⟩ := h2
  refine ⟨?_, ?_, ?_⟩
  · simp [pathsOf] at ha1 ha2 ⊢
    simp [ha2, ha1]
  · intro m hm
    rcases List.mem_append.1 hm with hm | hm
    · exact hb1 m hm
    · intro hv
      exact (hb2 m hm) (by simp [ha1, hv])
  · simp only [pathsOf, List.map_append]
    refine List.Nodup.append hc1 hc2 ?_
    intro x hx1 hx2
    obtain ⟨m, hm, hfp⟩ := List.mem_map.1 hx2
    refine hb2 m hm ?_
    rw [ha1]
    refine List.mem_append.2 (Or.inl ?_)
    rw [List.mem_reverse]
    unfold pathsOf
    rw [hfp]
    exact hx1

theorem extract_modules_list_EmP : ∀ (items : List Json) (p : Json) (v : List Json),
    EmP (extract_modules_list items p v).1 v (extract_modules_list items p v).2 := by
  refine extract_modules_list.induct
    (fun d p v => EmP (extract_modules d p v).1 v (extract_modules d p v).2)
    (fun i p v => EmP (extract_modules_list i p v).1 v (extract_modules_list i p v).2)
    ?_ ?_ ?_ ?_ ?_ ?_ ?_ ?_ ?_ ?_ ?_
  · intro p v fields nm fp dp hdoc hfile hname full_name hmem
    rw [em_eq_dup hname hfile hdoc hmem]
    exact EmP_nil v
  · intro p v fields nm fp dp hdoc hfile hname full_name hnot items hsub hsub2 htr IH
    rw [em_eq_arr hname hfile hdoc hnot hsub htr]
    refine EmP_cons ?_ ?_
    · exact hnot
    · exact IH
  · intro p v fields nm fp dp hdoc hfile hname full_name hnot sfields hsub hsub2 htr IH
    rw [em_eq_objsub hname hfile hdoc hnot hsub htr]
    refine EmP_cons ?_ ?_
    · exact hnot
    · exact IH
  · intro p v fields nm fp dp hdoc hfile hname full_name hnot subs hsub htr hsub2 harr hobj
    rw [em_eq_leafsub hname hfile hdoc hnot hsub2 ?_]
    · refine EmP_cons ?_ (EmP_nil _)
      exact hnot
    · constructor
      · intro items heqs
        subst heqs
        exact harr items hsub2 rfl HEq.rfl
      · intro sfields heqs
        subst heqs
        exact hobj sfields hsub2 rfl HEq.rfl
  · intro p v fields nm fp dp hdoc hfile hname full_name hnot subs hsub hntr
    rw [em_eq_falsysub hname hfile hdoc hnot hsub hntr]
    refine EmP_cons ?_ (EmP_nil _)
    exact hnot
  · intro p v fields nm fp dp hdoc hfile hname full_name hnot hsubnone
    rw [em_eq_nosub hname hfile hdoc hnot hsubnone]
    refine EmP_cons ?_ (EmP_nil _)
    exact hnot
  · intro p v fields hmiss
    rcases hn : lookupKey fields "name" with _ | nm
    · rw [em_eq_notmod (Or.inl hn)]
      exact EmP_nil v
    · rcases hf : lookupKey fields "filepath" with _ | fp
      · rw [em_eq_notmod (Or.inr (Or.inl hf))]
        exact EmP_nil v
      · rcases hd : lookupKey fields "docpath" with _ | dp
        · rw [em_eq_notmod (Or.inr (Or.inr hd))]
          exact EmP_nil v
        · exact (hmiss nm fp dp hn hf hd).elim
  · intro d p v hno
    rw [em_eq_nonobj hno]
    exact EmP_nil v
  · intro p v
    rw [eml_eq_nil]
    exact EmP_nil v
  · intro p v rest fields r IH1 IH2
    rw [eml_eq_obj]
    exact EmP_append IH1 IH2
  · intro p v item rest hno IH
    rw [eml_eq_skip hno]
    exact IH

/-- The EmP invariant for a single-document traversal, derived from the list
version via the singleton list. -/
theorem extract_modules_EmP (d p : Json) (v : List Json) :
    EmP (extract_modules d p v).1 v (extract_modules d p v).2 := by
  by_cases hobj : ∃ fields, d = .obj fields
  · obtain ⟨fields, rfl⟩ := hobj
    have h := extract_modules_list_EmP [.obj fields] p v
    rw [eml_eq_obj, eml_eq_nil] at h
    simpa using h
  · rw [em_eq_nonobj (fun fields hf => hobj ⟨fields, hf⟩)]
    exact EmP_nil v

theorem fullNameOf_pos {p : Json} (nm : Json) (h : pyTruthy p = true) :
    fullNameOf p nm = .str (pyStr p ++ "/" ++ pyStr nm) := by
  unfold fullNameOf
  rw [if_pos h]

theorem fullNameOf_neg {p : Json} (nm : Json) (h : pyTruthy p = false) :
    fullNameOf p nm = nm := by
  unfold fullNameOf
  rw [h]
  simp

theorem emInfo_full_path (fields : List (String × Json)) (p nm : Json) :
    (emInfo fields p nm).full_path = fullNameOf p nm := rfl

theorem emInfo_name (fields : List (String × Json)) (p nm : Json) :
    (emInfo fields p nm).name = nm := rfl

theorem emInfo_parent (fields : List (String × Json)) (p nm : Json) :
    (emInfo fields p nm).parent =
      (if pyTruthy p = true then some p else none) := rfl

theorem pyTruthy_fullNameOf {p : Json} (nm : Json) (h : pyTruthy p = true) :
    pyTruthy (fullNameOf p nm) = true := by
  rw [fullNameOf_pos nm h]
  simp only [pyTruthy, Bool.not_eq_true']
  rw [Bool.eq_false_iff]
  intro habs
  rw [String.isEmpty_iff] at habs
  have hlen := congrArg String.length habs
  rw [String.length_append, String.length_append] at hlen
  have hone : ("/").length = 1 := rfl
  have hzero : ("" : String).length = 0 := rfl
  rw [hone, hzero] at hlen
  omega

/-- The full-path/parent shape invariant of extract_modules output lists for a
traversal started with parent context `p`: every record is either recorded as
parent-less with its full path equal to `fullNameOf p` of its own name, or
carries the full path of another record in the same output as its parent, with
its own full path obtained by appending `/` and its name. -/
def emPathP (out : List ModuleInfo) (p : Json) : Prop :=
  ∀ m ∈ out,
    (m.parent = (if pyTruthy p = true then some p else none) ∧
      m.full_path = fullNameOf p m.name) ∨
    (∃ r ∈ out, m.parent = some r.full_path ∧
      m.full_path = .str (pyStr r.full_path ++ "/" ++ pyStr m.name))

theorem emPathP_nil (p : Json) : emPathP [] p := by
  intro m hm
  exact absurd hm (List.not_mem_nil m)

/-- Pushing the head record: the head is the record of the current node, the
tail was produced with the head's full path as parent context. -/
theorem emPathP_cons {fields : List (String × Json)} {p nm : Json}
    {out : List ModuleInfo}
    (hout : emPathP out (fullNameOf p nm)) :
    emPathP (emInfo fields p nm :: out) p := by
  intro m hm
  rcases List.mem_cons.1 hm with hm | hm
  · subst hm
    left
    constructor
    · rfl
    · rfl
  · rcases hout m hm with ⟨hpar, hfp⟩ | ⟨r, hr, hpar, hfp⟩
    · by_cases htf : pyTruthy (fullNameOf p nm) = true
      · right
        refine ⟨emInfo fields p nm, List.mem_cons_self _ _, ?_, ?_⟩
        · rw [hpar, if_pos htf, emInfo_full_path]
        · rw [hfp, emInfo_full_path]
          exact fullNameOf_pos m.name htf
      · have htf2 : pyTruthy (fullNameOf p nm) = false := by
          rwa [Bool.not_eq_true] at htf
        have hpf : pyTruthy p = false := by
          rcases Bool.eq_false_or_eq_true (pyTruthy p) with h | h
          · exact absurd (pyTruthy_fullNameOf nm h) htf
          · exact h
        left
        constructor
        · rw [hpar, if_neg htf, hpf]
          simp
        · rw [hfp, fullNameOf_neg m.name htf2, fullNameOf_neg m.name hpf]
    · right
      exact ⟨r, List.mem_cons_of_mem _ hr, hpar, hfp⟩

theorem emPathP_append {o1 o2 : List ModuleInfo} {p : Json}
    (h1 : emPathP o1 p) (h2 : emPathP o2 p) : emPathP (o1 ++ o2) p := by
  intro m hm
  rcases List.mem_append.1 hm with hm | hm
  · rcases h1 m hm with h | ⟨r, hr, hh⟩
    · exact Or.inl h
    · exact Or.inr ⟨r, List.mem_append.2 (Or.inl hr), hh⟩
  · rcases h2 m hm with h | ⟨r, hr, hh⟩
    · exact Or.inl h
    · exact Or.inr ⟨r, List.mem_append.2 (Or.inr hr), hh⟩

theorem extract_modules_list_pathP : ∀ (items : List Json) (p : Json) (v : List Json),
    emPathP (extract_modules_list items p v).1 p := by
  refine extract_modules_list.induct
    (fun d p v => emPathP (extract_modules d p v).1 p)
    (fun i p v => emPathP (extract_modules_list i p v).1 p)
    ?_ ?_ ?_ ?_ ?_ ?_ ?_ ?_ ?_ ?_ ?_
  · intro p v fields nm fp dp hdoc hfile hname full_name hmem
    rw [em_eq_dup hname hfile hdoc hmem]
    exact emPathP_nil p
  · intro p v fields nm fp dp hdoc hfile hname full_name hnot items hsub hsub2 htr IH
    rw [em_eq_arr hname hfile hdoc hnot hsub htr]
    exact emPathP_cons IH
  · intro p v fields nm fp dp hdoc hfile hname full_name hnot sfields hsub hsub2 htr IH
    rw [em_eq_objsub hname hfile hdoc hnot hsub htr]
    exact emPathP_cons IH
  · intro p v fields nm fp dp hdoc hfile hname full_name hnot subs hsub htr hsub2 harr hobj
    rw [em_eq_leafsub hname hfile hdoc hnot hsub2 ?_]
    · exact emPathP_cons (emPathP_nil _)
    · constructor
      · intro items heqs
        subst heqs
        exact harr items hsub2 rfl HEq.rfl
      · intro sfields heqs
        subst heqs
        exact hobj sfields hsub2 rfl HEq.rfl
  · intro p v fields nm fp dp hdoc hfile hname full_name hnot subs hsub hntr
    rw [em_eq_falsysub hname hfile hdoc hnot hsub hntr]
    exact emPathP_cons (emPathP_nil _)
  · intro p v fields nm fp dp hdoc hfile hname full_name hnot hsubnone
    rw [em_eq_nosub hname hfile hdoc hnot hsubnone]
    exact emPathP_cons (emPathP_nil _)
  · intro p v fields hmiss
    rcases hn : lookupKey fields "name" with _ | nm
    · rw [em_eq_notmod (Or.inl hn)]
      exact emPathP_nil p
    · rcases hf : lookupKey fields "filepath" with _ | fp
      · rw [em_eq_notmod (Or.inr (Or.inl hf))]
        exact emPathP_nil p
      · rcases hd : lookupKey fields "docpath" with _ | dp
        · rw [em_eq_notmod (Or.inr (Or.inr hd))]
          exact emPathP_nil p
        · exact (hmiss nm fp dp hn hf hd).elim
  · intro d p v hno
    rw [em_eq_nonobj hno]
    exact emPathP_nil p
  · intro p v
    rw [eml_eq_nil]
    exact emPathP_nil p
  · intro p v rest fields r IH1 IH2
    rw [eml_eq_obj]
    exact emPathP_append IH1 IH2
  · intro p v item rest hno IH
    rw [eml_eq_skip hno]
    exact IH

theorem extract_modules_pathP (d p : Json) (v : List Json) :
    emPathP (extract_modules d p v).1 p := by
  by_cases hobj : ∃ fields, d = .obj fields
  · obtain ⟨fields, rfl⟩ := hobj
    have h := extract_modules_list_pathP [.obj fields] p v
    rw [eml_eq_obj, eml_eq_nil] at h
    simpa [emPathP] using h
  · rw [em_eq_nonobj (fun fields hf => hobj ⟨fields, hf⟩)]
    exact emPathP_nil p

/-! ## Example documents -/

/-- Fields of a leaf module named `alu`. -/
def aluFields : List (String × Json) :=
  [("name", .str "alu"), ("filepath", .str "alu.v"), ("docpath", .str "alu.md")]

/-- Fields of a root module `cpu` whose submodule list contains two identical
copies of the `alu` subtree (as after resolving two identical references). -/
def cpuFields : List (String × Json) :=
  [("name", .str "cpu"), ("filepath", .str "cpu.v"), ("docpath", .str "cpu.md"),
   ("submodules", .arr [.obj aluFields, .obj aluFields])]

/-- Concrete run: the duplicated `alu` subtree yields a single record. -/
theorem exCpu_eval : extract_modules (.obj cpuFields) (.str "") [] =
    ([emInfo cpuFields (.str "") (.str "cpu"), emInfo aluFields (.str "cpu") (.str "alu")],
     [.str "cpu/alu", .str "cpu"]) := by
  rw [@em_eq_arr cpuFields (.str "") [] (.str "cpu") (.str "cpu.v") (.str "cpu.md")
    [.obj aluFields, .obj aluFields] rfl rfl rfl (by simp) rfl rfl]
  rw [show fullNameOf (.str "") (.str "cpu") = .str "cpu" from rfl]
  rw [eml_eq_obj]
  rw [@em_eq_nosub aluFields (.str "cpu") [.str "cpu"] (.str "alu") (.str "alu.v")
    (.str "alu.md") rfl rfl rfl (by decide) rfl]
  rw [show fullNameOf (.str "cpu") (.str "alu") = .str "cpu/alu" from rfl]
  rw [eml_eq_obj]
  rw [@em_eq_dup aluFields (.str "cpu") [.str "cpu/alu", .str "cpu"] (.str "alu")
    (.str "alu.v") (.str "alu.md") rfl rfl rfl (by decide)]
  rw [eml_eq_nil]
  rfl

/-! ## Claims C1, C3, C10 -/

/-- C1: for every resolved document, extract_modules never emits two records
with the same full hierarchical path: the emitted full paths are pairwise
distinct and avoid everything already in `visited`, and a module node whose
full path is already visited contributes nothing at all — no record and no
descent into its submodules (the result is exactly `([], visited)`). -/
theorem claim_C1 (d p : Json) (v : List Json) :
    (pathsOf (extract_modules d p v).1).Nodup ∧
    (∀ m ∈ (extract_modules d p v).1, m.full_path ∉ v) ∧
    (∀ fields nm _fp _dp, d = .obj fields →
      lookupKey fields "name" = some nm →
      lookupKey fields "filepath" = some _fp →
      lookupKey fields "docpath" = some _dp →
      fullNameOf p nm ∈ v →
      extract_modules d p v = ([], v)) := by
  refine ⟨(extract_modules_EmP d p v).2.2, (extract_modules_EmP d p v).2.1, ?_⟩
  intro fields nm fp dp hd hname hfile hdoc hmem
  subst hd
  exact em_eq_dup hname hfile hdoc hmem

theorem claim_C1_witness :
    (pathsOf (extract_modules (.obj cpuFields) (.str "") []).1).Nodup ∧
    extract_modules (.obj aluFields) (.str "cpu") [.str "cpu/alu"] =
      ([], [.str "cpu/alu"]) :=
  ⟨(claim_C1 (.obj cpuFields) (.str "") []).1,
   (claim_C1 (.obj aluFields) (.str "cpu") [.str "cpu/alu"]).2.2 aluFields (.str "alu")
     (.str "alu.v") (.str "alu.md") rfl rfl rfl rfl (by decide)⟩

/-- C3: in every record emitted by a root-level extract_modules run, either
the record is root-level (its `parent` is `None`) and its full path is its own
name, or its `parent` holds the full path of another emitted record (its
parent module) and its full path is that parent full path, a `/`, and its own
name. -/
theorem claim_C3 (d : Json) :
    ∀ m ∈ (extract_modules d (.str "") []).1,
      (m.parent = none ∧ m.full_path = m.name) ∨
      (∃ r ∈ (extract_modules d (.str "") []).1,
        m.parent = some r.full_path ∧
        m.full_path = .str (pyStr r.full_path ++ "/" ++ pyStr m.name)) := by
  intro m hm
  have h := extract_modules_pathP d (.str "") [] m hm
  rcases h with ⟨hpar, hfp⟩ | h
  · left
    refine ⟨?_, ?_⟩
    · rw [hpar]
      rfl
    · rw [hfp]
      exact fullNameOf_neg m.name rfl
  · right
    exact h

theorem claim_C3_witness :
    ∃ r ∈ (extract_modules (.obj cpuFields) (.str "") []).1,
      (emInfo aluFields (.str "cpu") (.str "alu")).parent = some r.full_path ∧
      (emInfo aluFields (.str "cpu") (.str "alu")).full_path =
        .str (pyStr r.full_path ++ "/" ++
          pyStr (emInfo aluFields (.str "cpu") (.str "alu")).name) := by
  have hmem : emInfo aluFields (.str "cpu") (.str "alu") ∈
      (extract_modules (.obj cpuFields) (.str "") []).1 := by
    rw [exCpu_eval]
    simp
  have h := claim_C3 (.obj cpuFields) (emInfo aluFields (.str "cpu") (.str "alu")) hmem
  rcases h with ⟨hpar, _⟩ | h
  · exact absurd hpar (by decide)
  · exact h

/-- C10: a value that is not a mapping carrying all three of `name`,
`filepath` and `docpath` yields no module records at all, regardless of what
is nested inside it: extract_modules returns `([], visited)` unchanged. -/
theorem claim_C10 (d p : Json) (v : List Json)
    (h : ∀ fields, d = .obj fields →
      lookupKey fields "name" = none ∨ lookupKey fields "filepath" = none ∨
      lookupKey fields "docpath" = none) :
    extract_modules d p v = ([], v) := by
  by_cases hobj : ∃ fields, d = .obj fields
  · obtain ⟨fields, rfl⟩ := hobj
    exact em_eq_notmod (h fields rfl)
  · exact em_eq_nonobj (fun fields hf => hobj ⟨fields, hf⟩)

theorem claim_C10_witness :
    extract_modules (.obj [("name", .str "top"), ("filepath", .str "top.v"),
      ("submodules", .arr [.obj aluFields])]) (.str "") [] = ([], []) ∧
    extract_modules (.arr [.obj cpuFields]) (.str "") [] = ([], []) :=
  ⟨claim_C10 _ (.str "") [] (by
      intro fields hf
      cases hf
      right
      right
      rfl),
   claim_C10 _ (.str "") [] (by
      intro fields hf
      exact Json.noConfusion hf)⟩

/-! ## Step equations for extract_testcases -/

theorem et_eq_dup {fields : List (String × Json)} {m : Json} {v : List Json} {nm : Json}
    (hname : lookupKey fields "name" = some nm)
    (hmem : nm ∈ v) :
    extract_testcases (.obj fields) m v = ([], v) := by
  rw [extract_testcases.eq_def]
  simp only [hname, hmem, if_pos]

theorem et_eq_arr {fields : List (String × Json)} {m : Json} {v : List Json} {nm : Json}
    {items : List Json}
    (hname : lookupKey fields "name" = some nm)
    (hnot : nm ∉ v)
    (hsub : lookupKey fields "submodules" = some (.arr items))
    (htr : pyTruthy (.arr items) = true) :
    extract_testcases (.obj fields) m v =
      (testcasesOf fields nm m ++
        (extract_testcases_list items (fullNameOf m nm) (nm :: v)).1,
       (extract_testcases_list items (fullNameOf m nm) (nm :: v)).2) := by
  rw [extract_testcases.eq_def]
  simp only [hname]
  rw [if_neg hnot]
  split
  · rename_i subs heq
    rw [hsub] at heq
    injection heq with heq2
    subst heq2
    rw [if_pos htr]
  · rename_i heq
    rw [hsub] at heq
    exact Option.noConfusion heq

theorem et_eq_objsub {fields : List (String × Json)} {m : Json} {v : List Json} {nm : Json}
    {sfields : List (String × Json)}
    (hname : lookupKey fields "name" = some nm)
    (hnot : nm ∉ v)
    (hsub : lookupKey fields "submodules" = some (.obj sfields))
    (htr : pyTruthy (.obj sfields) = true) :
    extract_testcases (.obj fields) m v =
      (testcasesOf fields nm m ++
        (extract_testcases (.obj sfields) (fullNameOf m nm) (nm :: v)).1,
       (extract_testcases (.obj sfields) (fullNameOf m nm) (nm :: v)).2) := by
  rw [extract_testcases.eq_def]
  simp only [hname]
  rw [if_neg hnot]
  split
  · rename_i subs heq
    rw [hsub] at heq
    injection heq with heq2
    subst heq2
    rw [if_pos htr]
  · rename_i heq
    rw [hsub] at heq
    exact Option.noConfusion heq

theorem et_eq_leafsub {fields : List (String × Json)} {m : Json} {v : List Json}
    {nm subs : Json}
    (hname : lookupKey fields "name" = some nm)
    (hnot : nm ∉ v)
    (hsub : lookupKey fields "submodules" = some subs)
    (hshape : (∀ items, subs ≠ .arr items) ∧ ∀ sfields, subs ≠ .obj sfields) :
    extract_testcases (.obj fields) m v = (testcasesOf fields nm m, nm :: v) := by
  rw [extract_testcases.eq_def]
  simp only [hname]
  rw [if_neg hnot]
  split
  · rename_i subs2 heq
    rw [hsub] at heq
    injection heq with heq2
    subst heq2
    by_cases htr : pyTruthy subs = true
    · rw [if_pos htr]
      cases subs with
      | arr items => exact (hshape.1 items rfl).elim
      | obj sfields => exact (hshape.2 sfields rfl).elim
      | null => rfl
      | bool b => rfl
      | num n => rfl
      | str s => rfl
    · rw [if_neg htr]
  · rename_i heq
    rw [hsub] at heq

theorem et_eq_falsysub {fields : List (String × Json)} {m : Json} {v : List Json}
    {nm subs : Json}
    (hname : lookupKey fields "name" = some nm)
    (hnot : nm ∉ v)
    (hsub : lookupKey fields "submodules" = some subs)
    (hntr : ¬pyTruthy subs = true) :
    extract_testcases (.obj fields) m v = (testcasesOf fields nm m, nm :: v) := by
  rw [extract_testcases.eq_def]
  simp only [hname]
  rw [if_neg hnot]
  split
  · rename_i subs2 heq
    rw [hsub] at heq
    injection heq with heq2
    subst heq2
    rw [if_neg hntr]
  · rename_i heq
    rw [hsub] at heq

theorem et_eq_nosub {fields : List (String × Json)} {m : Json} {v : List Json} {nm : Json}
    (hname : lookupKey fields "name" = some nm)
    (hnot : nm ∉ v)
    (hsub : lookupKey fields "submodules" = none) :
    extract_testcases (.obj fields) m v = (testcasesOf fields nm m, nm :: v) := by
  rw [extract_testcases.eq_def]
  simp only [hname]
  rw [if_neg hnot]
  split
  · rename_i subs2 heq
    rw [hsub] at heq
    exact Option.noConfusion heq
  · rfl

theorem et_eq_noname {fields : List (String × Json)} {m : Json} {v : List Json}
    (hname : lookupKey fields "name" = none) :
    extract_testcases (.obj fields) m v = ([], v) := by
  rw [extract_testcases.eq_def]
  simp only [hname]

theorem et_eq_nonobj {d m : Json} {v : List Json}
    (hno : ∀ fields, d ≠ .obj fields) :
    extract_testcases d m v = ([], v) := by
  cases d with
  | obj fields => exact (hno fields rfl).elim
  | null => rw [extract_testcases.eq_def]
  | bool b => rw [extract_testcases.eq_def]
  | num n => rw [extract_testcases.eq_def]
  | str s => rw [extract_testcases.eq_def]
  | arr l => rw [extract_testcases.eq_def]

theorem etl_eq_nil {m : Json} {v : List Json} :
    extract_testcases_list [] m v = ([], v) := by
  rw [extract_testcases_list.eq_def]

theorem etl_eq_obj {ifields : List (String × Json)} {rest : List Json} {m : Json}
    {v : List Json} :
    extract_testcases_list (.obj ifields :: rest) m v =
      ((extract_testcases (.obj ifields) m v).1 ++
        (extract_testcases_list rest m (extract_testcases (.obj ifields) m v).2).1,
       (extract_testcases_list rest m (extract_testcases (.obj ifields) m v).2).2) := by
  rw [extract_testcases_list.eq_def]

theorem etl_eq_skip {item : Json} {rest : List Json} {m : Json} {v : List Json}
    (hno : ∀ fields, item ≠ .obj fields) :
    extract_testcases_list (item :: rest) m v = extract_testcases_list rest m v := by
  cases item with
  | obj fields => exact (hno fields rfl).elim
  | null => rw [extract_testcases_list.eq_def]
  | bool b => rw [extract_testcases_list.eq_def]
  | num n => rw [extract_testcases_list.eq_def]
  | str s => rw [extract_testcases_list.eq_def]
  | arr l => rw [extract_testcases_list.eq_def]

/-! ## Grouping: occurrences of each value form one contiguous block -/

/-- A list is grouped when equal entries are contiguous: any entry lying
between two equal entries equals them.  This is the observable consequence of
name-keyed deduplication: once the traversal has moved past a module name, no
later record carries it again. -/
def Grouped (l : List Json) : Prop :=
  ∀ i t k : Nat, i ≤ t → t ≤ k → l[i]? = l[k]? → l[t]? = l[k]?

theorem Grouped_nil : Grouped [] := by
  intro i t k _ _ _
  simp

theorem Grouped_const {l : List Json} (nm : Json) (h : ∀ x ∈ l, x = nm) :
    Grouped l := by
  intro i t k hit htk hik
  by_cases hk : k < l.length
  · have ht : t < l.length := lt_of_le_of_lt htk hk
    rw [List.getElem?_eq_getElem hk, List.getElem?_eq_getElem ht]
    rw [h _ (List.getElem_mem ht), h _ (List.getElem_mem hk)]
  · push_neg at hk
    have hknone : l[k]? = none := List.getElem?_eq_none_iff.mpr hk
    rw [hknone] at hik ⊢
    have hi : l.length ≤ i := by
      by_contra hcon
      push_neg at hcon
      rw [List.getElem?_eq_getElem hcon] at hik
      exact Option.noConfusion hik
    exact List.getElem?_eq_none_iff.mpr (le_trans hi hit)

theorem Grouped_append {l1 l2 : List Json}
    (h1 : Grouped l1) (h2 : Grouped l2)
    (hdisj : ∀ x, x ∈ l1 → x ∈ l2 → False) :
    Grouped (l1 ++ l2) := by
  intro i t k hit htk hik
  by_cases hk : k < l1.length
  · have ht : t < l1.length := lt_of_le_of_lt htk hk
    have hi : i < l1.length := lt_of_le_of_lt hit ht
    rw [List.getElem?_append_left hk, List.getElem?_append_left hi] at hik
    rw [List.getElem?_append_left hk, List.getElem?_append_left ht]
    exact h1 i t k hit htk hik
  · push_neg at hk
    by_cases hi : i < l1.length
    · rw [List.getElem?_append_left hi, List.getElem?_append_right hk] at hik
      rw [List.getElem?_eq_getElem hi] at hik
      have hmem1 : l1[i] ∈ l1 := List.getElem_mem hi
      have hmem2 : l1[i] ∈ l2 := List.getElem?_mem hik.symm
      exact (hdisj _ hmem1 hmem2).elim
    · push_neg at hi
      have ht : l1.length ≤ t := le_trans hi hit
      rw [List.getElem?_append_right hk, List.getElem?_append_right hi] at hik
      rw [List.getElem?_append_right hk, List.getElem?_append_right ht]
      exact h2 (i - l1.length) (t - l1.length) (k - l1.length)
        (by omega) (by omega) hik

/-! ## Invariants of extract_testcases -/

/-- Every record built by the per-module emission block carries the module's
name and the accumulated path handed down by the caller (which excludes the
module itself). -/
theorem emitTestcases_module : ∀ (tcs : List Json) (idx : Nat) (nm m tb gm : Json),
    ∀ r ∈ emitTestcases tcs idx nm m tb gm, r.module = nm ∧ r.module_path = m := by
  intro tcs
  induction tcs with
  | nil =>
    intro idx nm m tb gm r hr
    simp [emitTestcases] at hr
  | cons tc rest ih =>
    intro idx nm m tb gm r hr
    cases tc with
    | obj tfs =>
      rcases List.mem_cons.1 hr with hr | hr
      · subst hr
        exact ⟨rfl, rfl⟩
      · exact ih _ _ _ _ _ r hr
    | null => exact ih (idx + 1) _ _ _ _ r hr
    | bool b => exact ih (idx + 1) _ _ _ _ r hr
    | num n => exact ih (idx + 1) _ _ _ _ r hr
    | str s => exact ih (idx + 1) _ _ _ _ r hr
    | arr l => exact ih (idx + 1) _ _ _ _ r hr

theorem testcasesOf_module {fields : List (String × Json)} {nm m : Json} :
    ∀ r ∈ testcasesOf fields nm m, r.module = nm ∧ r.module_path = m := by
  intro r hr
  unfold testcasesOf at hr
  split at hr
  · split at hr
    · split at hr
      · split at hr
        · split at hr
          · exact emitTestcases_module _ _ _ _ _ _ r hr
          · exact absurd hr (List.not_mem_nil r)
        · exact absurd hr (List.not_mem_nil r)
      · exact absurd hr (List.not_mem_nil r)
    · exact absurd hr (List.not_mem_nil r)
  · exact absurd hr (List.not_mem_nil r)

/-- The dedup invariant of extract_testcases relating output records to the
`visited` name set before (`v0`) and after (`v1`): `visited` only grows, every
record's module name is newly visited, and the emitted module names are
grouped (a name never recurs after the traversal moved past it). -/
def EtP (out : List TestCaseInfo) (v0 v1 : List Json) : Prop :=
  (∀ x ∈ v0, x ∈ v1) ∧
  (∀ r ∈ out, r.module ∈ v1 ∧ r.module ∉ v0) ∧
  Grouped (out.map TestCaseInfo.module)

theorem EtP_nil (v : List Json) : EtP [] v v := by
  refine ⟨fun x hx => hx, ?_, ?_⟩
  · intro r hr
    exact absurd hr (List.not_mem_nil r)
  · simpa using Grouped_nil

theorem EtP_head {fields : List (String × Json)} {nm m : Json}
    {out : List TestCaseInfo} {v0 v1 : List Json}
    (hnot : nm ∉ v0)
    (hout : EtP out (nm :: v0) v1) :
    EtP (testcasesOf fields nm m ++ out) v0 v1 := by
  obtain ⟨hgrow, hfresh, hgrp⟩ := hout
  refine ⟨?_, ?_, ?_⟩
  · intro x hx
    exact hgrow x (List.mem_cons_of_mem _ hx)
  · intro r hr
    rcases List.mem_append.1 hr with hr | hr
    · obtain ⟨hm, _⟩ := testcasesOf_module r hr
      rw [hm]
      exact ⟨hgrow nm (List.mem_cons_self _ _), hnot⟩
    · obtain ⟨h1, h2⟩ := hfresh r hr
      exact ⟨h1, fun hv => h2 (List.mem_cons_of_mem _ hv)⟩
  · rw [List.map_append]
    refine Grouped_append (Grouped_const nm ?_) hgrp ?_
    · intro x hx
      obtain ⟨r, hr, hrx⟩ := List.mem_map.1 hx
      rw [← hrx]
      exact (testcasesOf_module r hr).1
    · intro x hx1 hx2
      obtain ⟨r1, hr1, hx1e⟩ := List.mem_map.1 hx1
      obtain ⟨r2, hr2, hx2e⟩ := List.mem_map.1 hx2
      have h1 : x = nm := by rw [← hx1e]; exact (testcasesOf_module r1 hr1).1
      have h2 := (hfresh r2 hr2).2
      rw [hx2e, h1] at h2
      exact h2 (List.mem_cons_self _ _)

theorem EtP_append {o1 o2 : List TestCaseInfo} {v0 vm v1 : List Json}
    (h1 : EtP o1 v0 vm) (h2 : EtP o2 vm v1) : EtP (o1 ++ o2) v0 v1 := by
  obtain ⟨hg1, hf1, hgr1⟩ := h1
  obtain ⟨hg2, hf2, hgr2⟩ := h2
  refine ⟨fun x hx => hg2 x (hg1 x hx), ?_, ?_⟩
  · intro r hr
    rcases List.mem_append.1 hr with hr | hr
    · exact ⟨hg2 _ (hf1 r hr).1, (hf1 r hr).2⟩
    · exact ⟨(hf2 r hr).1, fun hv => (hf2 r hr).2 (hg1 _ hv)⟩
  · rw [List.map_append]
    refine Grouped_append hgr1 hgr2 ?_
    intro x hx1 hx2
    obtain ⟨r1, hr1, hx1e⟩ := List.mem_map.1 hx1
    obtain ⟨r2, hr2, hx2e⟩ := List.mem_map.1 hx2
    have hin : x ∈ vm := hx1e ▸ (hf1 r1 hr1).1
    have hno : x ∉ vm := hx2e ▸ (hf2 r2 hr2).2
    exact hno hin

theorem extract_testcases_list_EtP : ∀ (items : List Json) (m : Json) (v : List Json),
    EtP (extract_testcases_list items m v).1 v (extract_testcases_list items m v).2 := by
  refine extract_testcases_list.induct
    (fun d m v => EtP (extract_testcases d m v).1 v (extract_testcases d m v).2)
    (fun i m v => EtP (extract_testcases_list i m v).1 v (extract_testcases_list i m v).2)
    ?_ ?_ ?_ ?_ ?_ ?_ ?_ ?_ ?_ ?_ ?_
  · intro m v fields nm hname hmem
    rw [et_eq_dup hname hmem]
    exact EtP_nil v
  · intro m v fields nm hname hnot visited1 items hsub hsub2 htr IH
    rw [et_eq_arr hname hnot hsub htr]
    exact EtP_head hnot IH
  · intro m v fields nm hname hnot visited1 sfields hsub hsub2 htr IH
    rw [et_eq_objsub hname hnot hsub htr]
    exact EtP_head hnot IH
  · intro m v fields nm hname hnot subs hsub htr hsub2 harr hobj
    rw [et_eq_leafsub hname hnot hsub2 ?_]
    · have h : EtP (testcasesOf fields nm m ++ []) v (nm :: v) :=
        EtP_head hnot (EtP_nil (nm :: v))
      simpa using h
    · constructor
      · intro items heqs
        subst heqs
        exact harr items hsub2 rfl HEq.rfl
      · intro sfields heqs
        subst heqs
        exact hobj sfields hsub2 rfl HEq.rfl
  · intro m v fields nm hname hnot subs hsub hntr
    rw [et_eq_falsysub hname hnot hsub hntr]
    have h : EtP (testcasesOf fields nm m ++ []) v (nm :: v) :=
      EtP_head hnot (EtP_nil (nm :: v))
    simpa using h
  · intro m v fields nm hname hnot hsubnone
    rw [et_eq_nosub hname hnot hsubnone]
    have h : EtP (testcasesOf fields nm m ++ []) v (nm :: v) :=
      EtP_head hnot (EtP_nil (nm :: v))
    simpa using h
  · intro m v fields hname
    rw [et_eq_noname hname]
    exact EtP_nil v
  · intro d m v hno
    rw [et_eq_nonobj hno]
    exact EtP_nil v
  · intro m v
    rw [etl_eq_nil]
    exact EtP_nil v
  · intro m v rest fields r IH1 IH2
    rw [etl_eq_obj]
    exact EtP_append IH1 IH2
  · intro m v item rest hno IH
    rw [etl_eq_skip hno]
    exact IH

theorem extract_testcases_EtP (d m : Json) (v : List Json) :
    EtP (extract_testcases d m v).1 v (extract_testcases d m v).2 := by
  by_cases hobj : ∃ fields, d = .obj fields
  · obtain ⟨fields, rfl⟩ := hobj
    have h := extract_testcases_list_EtP [.obj fields] m v
    rw [etl_eq_obj, etl_eq_nil] at h
    simpa using h
  · rw [et_eq_nonobj (fun fields hf => hobj ⟨fields, hf⟩)]
    exact EtP_nil v

/-! ## The submodule-context relation for extract_testcases

`SubCtx d m d2 m2` says: starting extract_testcases at node `d` with
accumulated module path `m`, the traversal can reach node `d2` with
accumulated module path `m2` by descending through `submodules` links, each
step extending the accumulated path with the current module's name
(extract_testcases.py lines 127 and 132). -/

inductive SubCtx : Json → Json → Json → Json → Prop where
  | base (d m : Json) : SubCtx d m d m
  | stepArr {d m : Json} {fields : List (String × Json)} {nm : Json}
      {items : List Json} {c : Json} {m2 : Json} :
      SubCtx d m (.obj fields) m2 →
      lookupKey fields "name" = some nm →
      lookupKey fields "submodules" = some (.arr items) →
      c ∈ items →
      SubCtx d m c (fullNameOf m2 nm)
  | stepObj {d m : Json} {fields sfields : List (String × Json)} {nm m2 : Json} :
      SubCtx d m (.obj fields) m2 →
      lookupKey fields "name" = some nm →
      lookupKey fields "submodules" = some (.obj sfields) →
      SubCtx d m (.obj sfields) (fullNameOf m2 nm)

theorem SubCtx_prependArr {fields : List (String × Json)} {nm : Json}
    {items : List Json} {c : Json} {m x mx : Json}
    (hname : lookupKey fields "name" = some nm)
    (hsub : lookupKey fields "submodules" = some (.arr items))
    (hc : c ∈ items)
    (h : SubCtx c (fullNameOf m nm) x mx) : SubCtx (.obj fields) m x mx := by
  induction h with
  | base => exact SubCtx.stepArr (SubCtx.base _ _) hname hsub hc
  | stepArr hsc hname2 hsub2 hc2 ih => exact SubCtx.stepArr ih hname2 hsub2 hc2
  | stepObj hsc hname2 hsub2 ih => exact SubCtx.stepObj ih hname2 hsub2

theorem SubCtx_prependObj {fields sfields : List (String × Json)} {nm : Json}
    {m x mx : Json}
    (hname : lookupKey fields "name" = some nm)
    (hsub : lookupKey fields "submodules" = some (.obj sfields))
    (h : SubCtx (.obj sfields) (fullNameOf m nm) x mx) :
    SubCtx (.obj fields) m x mx := by
  induction h with
  | base => exact SubCtx.stepObj (SubCtx.base _ _) hname hsub
  | stepArr hsc hname2 hsub2 hc2 ih => exact SubCtx.stepArr ih hname2 hsub2 hc2
  | stepObj hsc hname2 hsub2 ih => exact SubCtx.stepObj ih hname2 hsub2

theorem extract_testcases_list_ctx : ∀ (items : List Json) (m : Json) (v : List Json),
    ∀ r ∈ (extract_testcases_list items m v).1,
      ∃ c ∈ items, ∃ fields nm m2, SubCtx c m (.obj fields) m2 ∧
        lookupKey fields "name" = some nm ∧ r ∈ testcasesOf fields nm m2 := by
  refine extract_testcases_list.induct
    (fun d m v => ∀ r ∈ (extract_testcases d m v).1,
      ∃ fields nm m2, SubCtx d m (.obj fields) m2 ∧
        lookupKey fields "name" = some nm ∧ r ∈ testcasesOf fields nm m2)
    (fun i m v => ∀ r ∈ (extract_testcases_list i m v).1,
      ∃ c ∈ i, ∃ fields nm m2, SubCtx c m (.obj fields) m2 ∧
        lookupKey fields "name" = some nm ∧ r ∈ testcasesOf fields nm m2)
    ?_ ?_ ?_ ?_ ?_ ?_ ?_ ?_ ?_ ?_ ?_
  · intro m v fields nm hname hmem r hr
    rw [et_eq_dup hname hmem] at hr
    exact absurd hr (List.not_mem_nil r)
  · intro m v fields nm hname hnot visited1 items hsub hsub2 htr IH r hr
    rw [et_eq_arr hname hnot hsub htr] at hr
    rcases List.mem_append.1 hr with hr | hr
    · exact ⟨fields, nm, m, SubCtx.base _ _, hname, hr⟩
    · obtain ⟨c, hc, fields2, nm2, m2, hsc, hlook, hr2⟩ := IH r hr
      exact ⟨fields2, nm2, m2, SubCtx_prependArr hname hsub hc hsc, hlook, hr2⟩
  · intro m v fields nm hname hnot visited1 sfields hsub hsub2 htr IH r hr
    rw [et_eq_objsub hname hnot hsub htr] at hr
    rcases List.mem_append.1 hr with hr | hr
    · exact ⟨fields, nm, m, SubCtx.base _ _, hname, hr⟩
    · obtain ⟨fields2, nm2, m2, hsc, hlook, hr2⟩ := IH r hr
      exact ⟨fields2, nm2, m2, SubCtx_prependObj hname hsub hsc, hlook, hr2⟩
  · intro m v fields nm hname hnot subs hsub htr hsub2 harr hobj r hr
    rw [et_eq_leafsub hname hnot hsub2 ?_] at hr
    · exact ⟨fields, nm, m, SubCtx.base _ _, hname, hr⟩
    · constructor
      · intro items heqs
        subst heqs
        exact harr items hsub2 rfl HEq.rfl
      · intro sfields heqs
        subst heqs
        exact hobj sfields hsub2 rfl HEq.rfl
  · intro m v fields nm hname hnot subs hsub hntr r hr
    rw [et_eq_falsysub hname hnot hsub hntr] at hr
    exact ⟨fields, nm, m, SubCtx.base _ _, hname, hr⟩
  · intro m v fields nm hname hnot hsubnone r hr
    rw [et_eq_nosub hname hnot hsubnone] at hr
    exact ⟨fields, nm, m, SubCtx.base _ _, hname, hr⟩
  · intro m v fields hname r hr
    rw [et_eq_noname hname] at hr
    exact absurd hr (List.not_mem_nil r)
  · intro d m v hno r hr
    rw [et_eq_nonobj hno] at hr
    exact absurd hr (List.not_mem_nil r)
  · intro m v r hr
    rw [etl_eq_nil] at hr
    exact absurd hr (List.not_mem_nil r)
  · intro m v rest fields r IH1 IH2 rr hrr
    rw [etl_eq_obj] at hrr
    rcases List.mem_append.1 hrr with hrr | hrr
    · obtain ⟨fields2, nm2, m2, hsc, hlook, hr2⟩ := IH1 rr hrr
      exact ⟨.obj fields, List.mem_cons_self _ _, fields2, nm2, m2, hsc, hlook, hr2⟩
    · obtain ⟨c, hc, rest2⟩ := IH2 rr hrr
      exact ⟨c, List.mem_cons_of_mem _ hc, rest2⟩
  · intro m v item rest hno IH rr hrr
    rw [etl_eq_skip hno] at hrr
    obtain ⟨c, hc, rest2⟩ := IH rr hrr
    exact ⟨c, List.mem_cons_of_mem _ hc, rest2⟩

theorem extract_testcases_ctx (d m : Json) (v : List Json) :
    ∀ r ∈ (extract_testcases d m v).1,
      ∃ fields nm m2, SubCtx d m (.obj fields) m2 ∧
        lookupKey fields "name" = some nm ∧ r ∈ testcasesOf fields nm m2 := by
  intro r hr
  by_cases hobj : ∃ fields, d = .obj fields
  · obtain ⟨fields, rfl⟩ := hobj
    have h := extract_testcases_list_ctx [.obj fields] m v r (by
      rw [etl_eq_obj, etl_eq_nil]
      simpa using hr)
    obtain ⟨c, hc, rest⟩ := h
    rw [List.mem_singleton.1 hc] at rest
    exact rest
  · rw [et_eq_nonobj (fun fields hf => hobj ⟨fields, hf⟩)] at hr
    exact absurd hr (List.not_mem_nil r)

/-! ## Test-case example documents -/

/-- A named test case. -/
def tcNamed : List (String × Json) := [("name", .str "t_basic"), ("run_cmd", .str "make run")]

/-- An unnamed test case (gets a synthetic `test_<index>` name). -/
def tcAnon : List (String × Json) := [("run_cmd", .str "make run2")]

/-- First module named `dup`, carrying two test cases. -/
def modAFields : List (String × Json) :=
  [("name", .str "dup"),
   ("test", .obj [("test_case", .arr [.obj tcNamed, .obj tcAnon]),
                  ("testbench_path", .str "tb.sv")])]

/-- Second, distinct module also named `dup`, with its own test case. -/
def modBFields : List (String × Json) :=
  [("name", .str "dup"),
   ("test", .obj [("test_case", .arr [.obj [("name", .str "other")]])])]

/-- Root `sys` whose submodules are the two distinct same-named modules. -/
def sysFields : List (String × Json) :=
  [("name", .str "sys"), ("submodules", .arr [.obj modAFields, .obj modBFields])]

/-- Concrete run: only the first `dup` module's test cases are emitted; the
second module named `dup` is skipped entirely. -/
theorem exSys_eval : extract_testcases (.obj sysFields) (.str "") [] =
    ([mkTestcase (.str "dup") (.str "sys") (.str "tb.sv") (.str "") 0 tcNamed,
      mkTestcase (.str "dup") (.str "sys") (.str "tb.sv") (.str "") 1 tcAnon],
     [.str "dup", .str "sys"]) := by
  rw [@et_eq_arr sysFields (.str "") [] (.str "sys") [.obj modAFields, .obj modBFields]
    rfl (by simp) rfl rfl]
  rw [show fullNameOf (.str "") (.str "sys") = .str "sys" from rfl]
  rw [etl_eq_obj]
  rw [@et_eq_nosub modAFields (.str "sys") [.str "sys"] (.str "dup") rfl (by decide) rfl]
  rw [etl_eq_obj]
  rw [@et_eq_dup modBFields (.str "sys") [.str "dup", .str "sys"] (.str "dup") rfl (by decide)]
  rw [etl_eq_nil]
  rfl

/-! ## Claims C2 and C7 -/

/-- C2: extract_testcases deduplicates by bare module name only: a module
node whose name is already visited is skipped entirely together with its
descendants (the result is exactly `([], visited)`), every emitted record's
module name is newly visited, and the emitted module-name sequence is
grouped — once the traversal has moved past a name, no later record carries
it, so two distinct modules sharing a name yield test cases only from the
first one visited. -/
theorem claim_C2 (d m : Json) (v : List Json) :
    Grouped ((extract_testcases d m v).1.map TestCaseInfo.module) ∧
    (∀ r ∈ (extract_testcases d m v).1, r.module ∉ v) ∧
    (∀ fields nm, d = .obj fields → lookupKey fields "name" = some nm → nm ∈ v →
      extract_testcases d m v = ([], v)) := by
  refine ⟨(extract_testcases_EtP d m v).2.2,
    fun r hr => ((extract_testcases_EtP d m v).2.1 r hr).2, ?_⟩
  intro fields nm hd hname hmem
  subst hd
  exact et_eq_dup hname hmem

theorem claim_C2_witness :
    extract_testcases (.obj modBFields) (.str "sys") [.str "dup", .str "sys"] =
      ([], [.str "dup", .str "sys"]) ∧
    (extract_testcases (.obj sysFields) (.str "") []).1.map TestCaseInfo.module =
      [.str "dup", .str "dup"] :=
  ⟨(claim_C2 (.obj modBFields) (.str "sys") [.str "dup", .str "sys"]).2.2
      modBFields (.str "dup") rfl rfl (by decide),
   by rw [exSys_eval]; rfl⟩

/-- C7: every record emitted by extract_testcases is produced by the test
block of a module node reachable from the root through submodule links, where
each link extends the accumulated path with the owning module's name; the
record's `module_path` is the accumulated path of that node's ancestors —
excluding the node itself — and its `module` is the node's name.  Records of
the root-level module (context `""`) get module_path `""`. -/
theorem claim_C7 (d m : Json) (v : List Json) :
    (∀ r ∈ (extract_testcases d m v).1,
      ∃ fields nm m2, SubCtx d m (.obj fields) m2 ∧
        lookupKey fields "name" = some nm ∧
        r ∈ testcasesOf fields nm m2 ∧
        r.module_path = m2 ∧ r.module = nm) ∧
    (∀ fields nm r, r ∈ testcasesOf fields nm (.str "") → r.module_path = .str "") := by
  constructor
  · intro r hr
    obtain ⟨fields, nm, m2, hsc, hlook, hr2⟩ := extract_testcases_ctx d m v r hr
    obtain ⟨hmod, hpath⟩ := testcasesOf_module r hr2
    exact ⟨fields, nm, m2, hsc, hlook, hr2, hpath, hmod⟩
  · intro fields nm r hr
    exact (testcasesOf_module r hr).2

theorem claim_C7_witness :
    ∃ fields nm m2, SubCtx (.obj sysFields) (.str "") (.obj fields) m2 ∧
      lookupKey fields "name" = some nm ∧
      mkTestcase (.str "dup") (.str "sys") (.str "tb.sv") (.str "") 0 tcNamed ∈
        testcasesOf fields nm m2 ∧
      (mkTestcase (.str "dup") (.str "sys") (.str "tb.sv") (.str "") 0 tcNamed).module_path
        = m2 ∧
      (mkTestcase (.str "dup") (.str "sys") (.str "tb.sv") (.str "") 0 tcNamed).module
        = nm :=
  (claim_C7 (.obj sysFields) (.str "") []).1 _ (by
    rw [exSys_eval]
    simp)

/-! ## Claim C9 -/

theorem emitTestcases_mem : ∀ (tcs : List Json) (idx i : Nat)
    (tfs : List (String × Json)) (nm m tb gm : Json),
    tcs[i]? = some (.obj tfs) →
    mkTestcase nm m tb gm (idx + i) tfs ∈ emitTestcases tcs idx nm m tb gm := by
  intro tcs
  induction tcs with
  | nil =>
    intro idx i tfs nm m tb gm h
    simp at h
  | cons tc rest ih =>
    intro idx i tfs nm m tb gm h
    cases i with
    | zero =>
      simp at h
      subst h
      exact List.mem_cons_self _ _
    | succ i2 =>
      simp at h
      have h2 := ih (idx + 1) i2 tfs nm m tb gm h
      have harith : idx + 1 + i2 = idx + (i2 + 1) := by omega
      rw [harith] at h2
      cases tc with
      | obj tfs2 => exact List.mem_cons_of_mem _ h2
      | null => exact h2
      | bool b => exact h2
      | num n => exact h2
      | str s => exact h2
      | arr l => exact h2

theorem emitTestcases_src : ∀ (tcs : List Json) (idx : Nat) (nm m tb gm : Json),
    ∀ r ∈ emitTestcases tcs idx nm m tb gm,
    ∃ i tfs, tcs[i]? = some (.obj tfs) ∧ r = mkTestcase nm m tb gm (idx + i) tfs := by
  intro tcs
  induction tcs with
  | nil =>
    intro idx nm m tb gm r hr
    simp [emitTestcases] at hr
  | cons tc rest ih =>
    intro idx nm m tb gm r hr
    have step : ∀ (h2 : r ∈ emitTestcases rest (idx + 1) nm m tb gm),
        ∃ i tfs, (tc :: rest)[i]? = some (.obj tfs) ∧
          r = mkTestcase nm m tb gm (idx + i) tfs := by
      intro h2
      obtain ⟨i, tfs, hget, hrec⟩ := ih (idx + 1) nm m tb gm r h2
      refine ⟨i + 1, tfs, by simpa using hget, ?_⟩
      rw [hrec]
      have harith : idx + 1 + i = idx + (i + 1) := by omega
      rw [harith]
    cases tc with
    | obj tfs2 =>
      rcases List.mem_cons.1 hr with hr | hr
      · exact ⟨0, tfs2, by simp, by simpa using hr⟩
      · exact step hr
    | null => exact step hr
    | bool b => exact step hr
    | num n => exact step hr
    | str s => exact step hr
    | arr l => exact step hr

/-- C9: within a module's test-case list, the entry at zero-based position
`i`, when it is a mapping with no `name` field, yields a record whose test
name is the synthetic `test_<i>`; and every emitted record comes from the
entry at some position `i`, built with exactly that index. -/
theorem claim_C9 (tcs : List Json) (nm m tb gm : Json) :
    (∀ i tfs, tcs[i]? = some (.obj tfs) → lookupKey tfs "name" = none →
      mkTestcase nm m tb gm i tfs ∈ emitTestcases tcs 0 nm m tb gm ∧
      (mkTestcase nm m tb gm i tfs).test_name = .str ("test_" ++ toString i)) ∧
    (∀ r ∈ emitTestcases tcs 0 nm m tb gm,
      ∃ i tfs, tcs[i]? = some (.obj tfs) ∧ r = mkTestcase nm m tb gm i tfs) := by
  constructor
  · intro i tfs hget hname
    constructor
    · have h := emitTestcases_mem tcs 0 i tfs nm m tb gm hget
      simpa using h
    · show getKeyD tfs "name" (.str ("test_" ++ toString i)) = _
      unfold getKeyD
      rw [hname]
      rfl
  · intro r hr
    obtain ⟨i, tfs, hget, hrec⟩ := emitTestcases_src tcs 0 nm m tb gm r hr
    exact ⟨i, tfs, hget, by simpa using hrec⟩

theorem claim_C9_witness :
    mkTestcase (.str "dup") (.str "sys") (.str "tb.sv") (.str "") 1 tcAnon ∈
      emitTestcases [.obj tcNamed, .obj tcAnon] 0 (.str "dup") (.str "sys")
        (.str "tb.sv") (.str "") ∧
    (mkTestcase (.str "dup") (.str "sys") (.str "tb.sv") (.str "") 1 tcAnon).test_name =
      .str "test_1" :=
  (claim_C9 [.obj tcNamed, .obj tcAnon] (.str "dup") (.str "sys") (.str "tb.sv")
    (.str "")).1 1 tcAnon (by decide) rfl

/-! ## Step equations for resolve_refs -/

theorem rv_eq_relref {fs : FileSys} {fuel : Nat} {fields : List (String × Json)}
    {base : FPath} {s : String} {data : Json}
    (href : lookupKey fields "$ref" = some (.str s))
    (hrel : (strStartsWith s "./" || strStartsWith s "../") = true)
    (hfs : lookupFS fs (joinPath base s) = some data) :
    resolve_refs fs (fuel + 1) (.obj fields) base =
      resolve_refs fs fuel data (dirOf (joinPath base s)) := by
  rw [resolve_refs.eq_def]
  simp only [href, hrel, hfs, if_pos]

theorem rv_eq_relref_missing {fs : FileSys} {fuel : Nat}
    {fields : List (String × Json)} {base : FPath} {s : String}
    (href : lookupKey fields "$ref" = some (.str s))
    (hrel : (strStartsWith s "./" || strStartsWith s "../") = true)
    (hfs : lookupFS fs (joinPath base s) = none) :
    resolve_refs fs fuel (.obj fields) base =
      .error (.fileNotFound (joinPath base s)) := by
  rw [resolve_refs.eq_def]
  simp only [href, hrel, hfs, if_pos]

theorem rv_eq_relref_fuel0 {fs : FileSys} {fields : List (String × Json)}
    {base : FPath} {s : String} {data : Json}
    (href : lookupKey fields "$ref" = some (.str s))
    (hrel : (strStartsWith s "./" || strStartsWith s "../") = true)
    (hfs : lookupFS fs (joinPath base s) = some data) :
    resolve_refs fs 0 (.obj fields) base = .error .fuelOut := by
  rw [resolve_refs.eq_def]
  simp only [href, hrel, hfs, if_pos]

theorem rv_eq_nonrel {fs : FileSys} {fuel : Nat} {fields : List (String × Json)}
    {base : FPath} {s : String}
    (href : lookupKey fields "$ref" = some (.str s))
    (hrel : (strStartsWith s "./" || strStartsWith s "../") = false) :
    resolve_refs fs fuel (.obj fields) base = .ok (.obj fields) := by
  rw [resolve_refs.eq_def]
  simp only [href, hrel]
  rfl

theorem rv_eq_refnonstr {fs : FileSys} {fuel : Nat} {fields : List (String × Json)}
    {base : FPath} {refv : Json}
    (href : lookupKey fields "$ref" = some refv)
    (hnstr : ∀ s, refv ≠ .str s) :
    resolve_refs fs fuel (.obj fields) base = .error .attrError := by
  cases refv with
  | str s => exact (hnstr s rfl).elim
  | null => rw [resolve_refs.eq_def]; simp only [href]
  | bool b => rw [resolve_refs.eq_def]; simp only [href]
  | num n => rw [resolve_refs.eq_def]; simp only [href]
  | arr l => rw [resolve_refs.eq_def]; simp only [href]
  | obj l => rw [resolve_refs.eq_def]; simp only [href]

theorem rv_eq_plain {fs : FileSys} {fuel : Nat} {fields : List (String × Json)}
    {base : FPath}
    (href : lookupKey fields "$ref" = none) :
    resolve_refs fs fuel (.obj fields) base =
      (match resolve_fields fs fuel fields base with
       | .ok fields2 => .ok (.obj fields2)
       | .error e => .error e) := by
  rw [resolve_refs.eq_def]
  simp only [href]

theorem rv_eq_arr {fs : FileSys} {fuel : Nat} {l : List Json} {base : FPath} :
    resolve_refs fs fuel (.arr l) base =
      (match resolve_list fs fuel l base with
       | .ok l2 => .ok (.arr l2)
       | .error e => .error e) := by
  rw [resolve_refs.eq_def]

theorem rv_eq_scalar {fs : FileSys} {fuel : Nat} {v : Json} {base : FPath}
    (hv : (∀ fields, v ≠ .obj fields) ∧ (∀ l, v ≠ .arr l)) :
    resolve_refs fs fuel v base = .ok v := by
  cases v with
  | obj fields => exact (hv.1 fields rfl).elim
  | arr l => exact (hv.2 l rfl).elim
  | null => rw [resolve_refs.eq_def]
  | bool b => rw [resolve_refs.eq_def]
  | num n => rw [resolve_refs.eq_def]
  | str s => rw [resolve_refs.eq_def]

theorem rf_eq_nil {fs : FileSys} {fuel : Nat} {base : FPath} :
    resolve_fields fs fuel [] base = .ok [] := by
  rw [resolve_fields.eq_def]

theorem rf_eq_cons {fs : FileSys} {fuel : Nat} {k : String} {v : Json}
    {rest : List (String × Json)} {base : FPath} :
    resolve_fields fs fuel ((k, v) :: rest) base =
      (match resolve_refs fs fuel v base with
       | .error e => .error e
       | .ok v2 =>
         match resolve_fields fs fuel rest base with
         | .error e => .error e
         | .ok rest2 => .ok ((k, v2) :: rest2)) := by
  rw [resolve_fields.eq_def]

theorem rl_eq_nil {fs : FileSys} {fuel : Nat} {base : FPath} :
    resolve_list fs fuel [] base = .ok [] := by
  rw [resolve_list.eq_def]

theorem rl_eq_cons {fs : FileSys} {fuel : Nat} {v : Json} {rest : List Json}
    {base : FPath} :
    resolve_list fs fuel (v :: rest) base =
      (match resolve_refs fs fuel v base with
       | .error e => .error e
       | .ok v2 =>
         match resolve_list fs fuel rest base with
         | .error e => .error e
         | .ok rest2 => .ok (v2 :: rest2)) := by
  rw [resolve_list.eq_def]

/-! ## Resolution leaves no relative reference outside opaque nodes -/

theorem lookupKey_none_iff {l : List (String × Json)} {key : String} :
    lookupKey l key = none ↔ key ∉ l.map Prod.fst := by
  induction l with
  | nil => simp [lookupKey]
  | cons kv rest ih =>
    obtain ⟨k, v⟩ := kv
    by_cases hk : k = key
    · subst hk
      simp [lookupKey]
    · simp only [lookupKey, if_neg hk, List.map_cons, List.mem_cons]
      rw [ih]
      constructor
      · intro h2 hcon
        rcases hcon with he | hmem
        · exact hk he.symm
        · exact h2 hmem
      · intro h2 hmem
        exact h2 (Or.inr hmem)

theorem resolve_fields_keys {fs : FileSys} :
    ∀ (fields : List (String × Json)) (fuel : Nat) (base : FPath)
      (f2 : List (String × Json)),
      resolve_fields fs fuel fields base = .ok f2 →
      f2.map Prod.fst = fields.map Prod.fst := by
  intro fields
  induction fields with
  | nil =>
    intro fuel base f2 h
    rw [rf_eq_nil] at h
    injection h with h
    rw [← h]
  | cons kv rest ih =>
    obtain ⟨k, v⟩ := kv
    intro fuel base f2 h
    rw [rf_eq_cons] at h
    cases hv : resolve_refs fs fuel v base with
    | error e =>
      rw [hv] at h
      exact Except.noConfusion h
    | ok v2 =>
      rw [hv] at h
      cases hr : resolve_fields fs fuel rest base with
      | error e =>
        rw [hr] at h
        exact Except.noConfusion h
      | ok rest2 =>
        rw [hr] at h
        injection h with h
        rw [← h]
        simp
        exact ih fuel base rest2 hr

theorem resolve_clean {fs : FileSys} :
    ∀ (fuel : Nat) (obj : Json) (base : FPath) (doc : Json),
      resolve_refs fs fuel obj base = .ok doc → cleanJson doc = true := by
  refine resolve_refs.induct fs
    (fun fuel obj base => ∀ doc, resolve_refs fs fuel obj base = .ok doc →
      cleanJson doc = true)
    (fun fuel l base => ∀ l2, resolve_list fs fuel l base = .ok l2 →
      cleanList l2 = true)
    (fun fuel fields base => ∀ f2, resolve_fields fs fuel fields base = .ok f2 →
      cleanFields f2 = true)
    ?_ ?_ ?_ ?_ ?_ ?_ ?_ ?_ ?_ ?_ ?_ ?_ ?_ ?_ ?_ ?_ ?_ ?_
  · intro fuel base fields s hrel ref_file hfs href doc h
    rw [rv_eq_relref_missing href hrel hfs] at h
    exact Except.noConfusion h
  · intro base fields s hrel ref_file data hfs href doc h
    rw [rv_eq_relref_fuel0 href hrel hfs] at h
    exact Except.noConfusion h
  · intro base fields s hrel ref_file data hfs n href IH doc h
    rw [rv_eq_relref href hrel hfs] at h
    exact IH doc h
  · intro fuel base fields s hnrel href doc h
    rw [rv_eq_nonrel href (by rwa [Bool.not_eq_true] at hnrel)] at h
    injection h with h
    rw [← h]
    unfold cleanJson isRelRefNode
    rw [href]
    have hfalse : (strStartsWith s "./" || strStartsWith s "../") = false := by
      rwa [Bool.not_eq_true] at hnrel
    simp [hfalse]
  · intro fuel base fields refv href hnstr doc h
    rw [rv_eq_refnonstr href (fun s hs => hnstr s hs)] at h
    exact Except.noConfusion h
  · intro fuel base fields href fields2 hok IH doc h
    rw [rv_eq_plain href, hok] at h
    injection h with h
    rw [← h]
    unfold cleanJson
    have hkeys := resolve_fields_keys fields fuel base fields2 hok
    have hnone : lookupKey fields2 "$ref" = none := by
      rw [lookupKey_none_iff, hkeys]
      exact lookupKey_none_iff.1 href
    rw [hnone]
    exact IH fields2 hok
  · intro fuel base fields href e herr IH doc h
    rw [rv_eq_plain href, herr] at h
    exact Except.noConfusion h
  · intro fuel base l l2 hok IH doc h
    rw [rv_eq_arr, hok] at h
    injection h with h
    rw [← h]
    exact IH l2 hok
  · intro fuel base l e herr IH doc h
    rw [rv_eq_arr, herr] at h
    exact Except.noConfusion h
  · intro fuel base v hnobj hnarr doc h
    rw [rv_eq_scalar ⟨fun fields hf => hnobj fields hf, fun l hl => hnarr l hl⟩] at h
    injection h with h
    rw [← h]
    cases v with
    | obj fields => exact (hnobj fields rfl).elim
    | arr l => exact (hnarr l rfl).elim
    | null => rfl
    | bool b => rfl
    | num n => rfl
    | str s => rfl
  · intro fuel base l2 h
    rw [rl_eq_nil] at h
    injection h with h
    rw [← h]
    rfl
  · intro fuel base item rest e herr IH l2 h
    rw [rl_eq_cons, herr] at h
    exact Except.noConfusion h
  · intro fuel base item rest v2 hok e herr IH1 IH2 l2 h
    rw [rl_eq_cons, hok, herr] at h
    exact Except.noConfusion h
  · intro fuel base item rest v2 hok rest2 hok2 IH1 IH2 l2 h
    rw [rl_eq_cons, hok, hok2] at h
    injection h with h
    rw [← h]
    unfold cleanList
    rw [IH1 v2 hok, IH2 rest2 hok2]
    rfl
  · intro fuel base f2 h
    rw [rf_eq_nil] at h
    injection h with h
    rw [← h]
    rfl
  · intro fuel base k v rest e herr IH f2 h
    rw [rf_eq_cons, herr] at h
    exact Except.noConfusion h
  · intro fuel base k v rest v2 hok e herr IH1 IH2 f2 h
    rw [rf_eq_cons, hok, herr] at h
    exact Except.noConfusion h
  · intro fuel base k v rest v2 hok rest2 hok2 IH1 IH2 f2 h
    rw [rf_eq_cons, hok, hok2] at h
    injection h with h
    rw [← h]
    unfold cleanFields
    rw [IH1 v2 hok, IH2 rest2 hok2]
    rfl

/-! ## Termination of resolution on acyclic reference graphs -/

/-- `RefChainP fs obj base ps`: starting from value `obj` resolved against
`base`, the resolver can follow the chain of referenced files `ps` (each hop
goes to a relative reference target that exists in the file system and
continues from that file's content and directory). -/
inductive RefChainP (fs : FileSys) : Json → FPath → List FPath → Prop where
  | nil (obj : Json) (base : FPath) : RefChainP fs obj base []
  | cons {obj : Json} {base : FPath} {p : FPath} {d : Json} {ps : List FPath} :
      p ∈ refPaths obj base →
      lookupFS fs p = some d →
      RefChainP fs d (dirOf p) ps →
      RefChainP fs obj base (p :: ps)

/-- File `p` references file `q`: `p`'s content contains a relative reference
node whose target, resolved against `p`'s directory, is `q`. -/
def refersTo (fs : FileSys) (p q : FPath) : Prop :=
  ∃ d, lookupFS fs p = some d ∧ q ∈ refPaths d (dirOf p)

/-- The reference graph has no cycle: no file reaches itself through one or
more reference hops. -/
def Acyclic (fs : FileSys) : Prop :=
  ∀ p, ¬Relation.TransGen (refersTo fs) p p

theorem RefChainP_mono {fs : FileSys} {a b : Json} {base : FPath} {ps : List FPath}
    (hsub : ∀ p, p ∈ refPaths a base → p ∈ refPaths b base)
    (h : RefChainP fs a base ps) : RefChainP fs b base ps := by
  cases h with
  | nil => exact RefChainP.nil b base
  | cons hp hlook hrest => exact RefChainP.cons (hsub _ hp) hlook hrest

theorem refPaths_fields_of_mem {fields : List (String × Json)} {k : String}
    {v : Json} {base : FPath} {p : FPath}
    (hkv : (k, v) ∈ fields) (hp : p ∈ refPaths v base) :
    p ∈ refPathsFields fields base := by
  induction fields with
  | nil => exact absurd hkv (List.not_mem_nil _)
  | cons kv2 rest ih =>
    obtain ⟨k2, v2⟩ := kv2
    rcases List.mem_cons.1 hkv with hkv | hkv
    · injection hkv with h1 h2
      subst h2
      unfold refPathsFields
      exact List.mem_append.2 (Or.inl hp)
    · unfold refPathsFields
      exact List.mem_append.2 (Or.inr (ih hkv))

theorem refPaths_field {fields : List (String × Json)} {k : String} {v : Json}
    {base : FPath} {p : FPath}
    (href : lookupKey fields "$ref" = none)
    (hkv : (k, v) ∈ fields) (hp : p ∈ refPaths v base) :
    p ∈ refPaths (.obj fields) base := by
  unfold refPaths
  rw [href]
  exact refPaths_fields_of_mem hkv hp

theorem refPaths_elem {l : List Json} {v : Json} {base : FPath} {p : FPath}
    (hv : v ∈ l) (hp : p ∈ refPaths v base) :
    p ∈ refPaths (.arr l) base := by
  unfold refPaths
  induction l with
  | nil => exact absurd hv (List.not_mem_nil _)
  | cons x rest ih =>
    rcases List.mem_cons.1 hv with hv | hv
    · subst hv
      unfold refPathsList
      exact List.mem_append.2 (Or.inl hp)
    · unfold refPathsList
      exact List.mem_append.2 (Or.inr (ih hv))

/-- Running out of fuel exhibits a reference chain one longer than the fuel:
the fuel-based model only fails to terminate along an actual chain of
reference hops. -/
theorem fuelOut_chain {fs : FileSys} :
    ∀ (fuel : Nat) (obj : Json) (base : FPath),
      resolve_refs fs fuel obj base = .error .fuelOut →
      ∃ ps, RefChainP fs obj base ps ∧ ps.length = fuel + 1 := by
  refine resolve_refs.induct fs
    (fun fuel obj base => resolve_refs fs fuel obj base = .error .fuelOut →
      ∃ ps, RefChainP fs obj base ps ∧ ps.length = fuel + 1)
    (fun fuel l base => resolve_list fs fuel l base = .error .fuelOut →
      ∃ ps, (∃ v ∈ l, RefChainP fs v base ps) ∧ ps.length = fuel + 1)
    (fun fuel fields base => resolve_fields fs fuel fields base = .error .fuelOut →
      ∃ ps, (∃ kv ∈ fields, RefChainP fs kv.2 base ps) ∧ ps.length = fuel + 1)
    ?_ ?_ ?_ ?_ ?_ ?_ ?_ ?_ ?_ ?_ ?_ ?_ ?_ ?_ ?_ ?_ ?_ ?_
  · intro fuel base fields s hrel ref_file hfs href h
    rw [rv_eq_relref_missing href hrel hfs] at h
    injection h with h
    exact RErr.noConfusion h
  · intro base fields s hrel ref_file data hfs href _h
    refine ⟨[ref_file], RefChainP.cons ?_ hfs (RefChainP.nil _ _), rfl⟩
    unfold refPaths
    rw [href]
    simp [hrel]
  · intro base fields s hrel ref_file data hfs n href IH h
    rw [rv_eq_relref href hrel hfs] at h
    obtain ⟨ps, hchain, hlen⟩ := IH h
    refine ⟨ref_file :: ps, RefChainP.cons ?_ hfs hchain, by simp [hlen]⟩
    unfold refPaths
    rw [href]
    simp [hrel]
  · intro fuel base fields s hnrel href h
    rw [rv_eq_nonrel href (by rwa [Bool.not_eq_true] at hnrel)] at h
    exact Except.noConfusion h
  · intro fuel base fields refv href hnstr h
    rw [rv_eq_refnonstr href (fun s hs => hnstr s hs)] at h
    injection h with h
    exact RErr.noConfusion h
  · intro fuel base fields href fields2 hok IH h
    rw [rv_eq_plain href, hok] at h
    exact Except.noConfusion h
  · intro fuel base fields href e herr IH h
    rw [rv_eq_plain href, herr] at h
    injection h with h
    subst h
    obtain ⟨ps, ⟨kv, hkv, hchain⟩, hlen⟩ := IH herr
    exact ⟨ps, RefChainP_mono (fun p hp =>
      refPaths_field href (by exact hkv) hp) hchain, hlen⟩
  · intro fuel base l l2 hok IH h
    rw [rv_eq_arr, hok] at h
    exact Except.noConfusion h
  · intro fuel base l e herr IH h
    rw [rv_eq_arr, herr] at h
    injection h with h
    subst h
    obtain ⟨ps, ⟨v, hv, hchain⟩, hlen⟩ := IH herr
    exact ⟨ps, RefChainP_mono (fun p hp => refPaths_elem hv hp) hchain, hlen⟩
  · intro fuel base v hnobj hnarr h
    rw [rv_eq_scalar ⟨fun fields hf => hnobj fields hf, fun l hl => hnarr l hl⟩] at h
    exact Except.noConfusion h
  · intro fuel base h
    rw [rl_eq_nil] at h
    exact Except.noConfusion h
  · intro fuel base item rest e herr IH h
    rw [rl_eq_cons, herr] at h
    injection h with h
    subst h
    obtain ⟨ps, hchain, hlen⟩ := IH herr
    exact ⟨ps, ⟨item, List.mem_cons_self _ _, hchain⟩, hlen⟩
  · intro fuel base item rest v2 hok e herr IH1 IH2 h
    rw [rl_eq_cons, hok, herr] at h
    injection h with h
    subst h
    obtain ⟨ps, ⟨v, hv, hchain⟩, hlen⟩ := IH2 herr
    exact ⟨ps, ⟨v, List.mem_cons_of_mem _ hv, hchain⟩, hlen⟩
  · intro fuel base item rest v2 hok rest2 hok2 IH1 IH2 h
    rw [rl_eq_cons, hok, hok2] at h
    exact Except.noConfusion h
  · intro fuel base h
    rw [rf_eq_nil] at h
    exact Except.noConfusion h
  · intro fuel base k v rest e herr IH h
    rw [rf_eq_cons, herr] at h
    injection h with h
    subst h
    obtain ⟨ps, hchain, hlen⟩ := IH herr
    exact ⟨ps, ⟨(k, v), List.mem_cons_self _ _, hchain⟩, hlen⟩
  · intro fuel base k v rest v2 hok e herr IH1 IH2 h
    rw [rf_eq_cons, hok, herr] at h
    injection h with h
    subst h
    obtain ⟨ps, ⟨kv, hkv, hchain⟩, hlen⟩ := IH2 herr
    exact ⟨ps, ⟨kv, List.mem_cons_of_mem _ hkv, hchain⟩, hlen⟩
  · intro fuel base k v rest v2 hok rest2 hok2 IH1 IH2 h
    rw [rf_eq_cons, hok, hok2] at h
    exact Except.noConfusion h

theorem chain_of_RefChainP {fs : FileSys} :
    ∀ {ps : List FPath} {r : FPath} {d : Json},
      lookupFS fs r = some d → RefChainP fs d (dirOf r) ps →
      List.Chain (refersTo fs) r ps := by
  intro ps
  induction ps with
  | nil =>
    intro r d _ _
    exact List.Chain.nil
  | cons p ps2 ih =>
    intro r d hlook h
    cases h with
    | cons hp hlook2 hrest =>
      exact List.Chain.cons ⟨d, hlook, hp⟩ (ih hlook2 hrest)

theorem RefChainP_mem_dom {fs : FileSys} :
    ∀ {ps : List FPath} {obj : Json} {base : FPath},
      RefChainP fs obj base ps → ∀ p ∈ ps, ∃ d, lookupFS fs p = some d := by
  intro ps
  induction ps with
  | nil =>
    intro obj base _ p hp
    exact absurd hp (List.not_mem_nil p)
  | cons q ps2 ih =>
    intro obj base h p hp
    cases h with
    | cons hq hlook hrest =>
      rcases List.mem_cons.1 hp with hp | hp
      · exact ⟨_, hp ▸ hlook⟩
      · exact ih hrest p hp

theorem chain_transGen {α : Type} {R : α → α → Prop} :
    ∀ {l : List α} {a b : α}, List.Chain R a l → b ∈ l →
      Relation.TransGen R a b := by
  intro l
  induction l with
  | nil =>
    intro a b _ hb
    exact absurd hb (List.not_mem_nil b)
  | cons c rest ih =>
    intro a b hch hb
    cases hch with
    | cons hac hrest =>
      rcases List.mem_cons.1 hb with hb | hb
      · subst hb
        exact Relation.TransGen.single hac
      · exact Relation.TransGen.head hac (ih hrest hb)

theorem chain_nodup {fs : FileSys} (hacyc : Acyclic fs) :
    ∀ {ps : List FPath} {r : FPath}, List.Chain (refersTo fs) r ps →
      (r :: ps).Nodup := by
  intro ps
  induction ps with
  | nil =>
    intro r _
    simp
  | cons p ps2 ih =>
    intro r hch
    cases hch with
    | cons hrp hrest =>
      rw [List.nodup_cons]
      refine ⟨?_, ih hrest⟩
      intro hmem
      exact hacyc r (chain_transGen (List.Chain.cons hrp hrest) hmem)

theorem lookupFS_mem_dom {fs : FileSys} :
    ∀ {p : FPath} {d : Json}, lookupFS fs p = some d → p ∈ fs.map Prod.fst := by
  induction fs with
  | nil =>
    intro p d h
    exact Option.noConfusion h
  | cons kv rest ih =>
    intro p d h
    obtain ⟨q, x⟩ := kv
    unfold lookupFS at h
    by_cases hq : q = p
    · subst hq
      exact List.mem_cons_self _ _
    · rw [if_neg hq] at h
      exact List.mem_cons_of_mem _ (ih h)

theorem nodup_length_le_dom {fs : FileSys} {l : List FPath}
    (hnd : l.Nodup) (hdom : ∀ p ∈ l, p ∈ fs.map Prod.fst) :
    l.length ≤ fs.length := by
  have h1 : l.toFinset.card = l.length := List.toFinset_card_of_nodup hnd
  have h2 : l.toFinset ⊆ (fs.map Prod.fst).toFinset := by
    intro x hx
    rw [List.mem_toFinset] at hx ⊢
    exact hdom x hx
  have h3 := Finset.card_le_card h2
  have h4 := List.toFinset_card_le (fs.map Prod.fst)
  rw [h1] at h3
  have h5 : (fs.map Prod.fst).length = fs.length := List.length_map _ _
  omega

/-- With an acyclic reference graph, fuel equal to the number of files is
enough: the resolver never runs out of fuel. -/
theorem resolve_no_fuelOut {fs : FileSys} {root : FPath} {data : Json}
    (hacyc : Acyclic fs)
    (hroot : lookupFS fs root = some data) :
    resolve_refs fs fs.length data (dirOf root) ≠ .error .fuelOut := by
  intro h
  obtain ⟨ps, hchain, hlen⟩ := fuelOut_chain fs.length data (dirOf root) h
  have hch := chain_of_RefChainP hroot hchain
  have hnd := chain_nodup hacyc hch
  have hdom : ∀ p ∈ root :: ps, p ∈ fs.map Prod.fst := by
    intro p hp
    rcases List.mem_cons.1 hp with hp | hp
    · subst hp
      exact lookupFS_mem_dom hroot
    · obtain ⟨d2, hd2⟩ := RefChainP_mem_dom hchain p hp
      exact lookupFS_mem_dom hd2
  have hle := nodup_length_le_dom hnd hdom
  simp [hlen] at hle
  omega

/-! ## Resolver example file systems -/

/-- A mapping whose `$ref` is opaque (non-relative) but which nests a
relative reference node, to a missing file, under another key. -/
def objOpq : Json :=
  .obj [("$ref", .str "http://x"), ("a", .obj [("$ref", .str "./missing.json")])]

def fsOpq : FileSys := [(["r.json"], objOpq)]

/-- Root fields carrying `$ref` together with another key. -/
def rootC5fields : List (String × Json) :=
  [("$ref", .str "./f.json"), ("extra", .num 1)]

def fsC5 : FileSys :=
  [(["r.json"], .obj rootC5fields), (["f.json"], .obj [("v", .num 2)])]

/-- A well-behaved two-file system: the root is a reference to `sub.json`. -/
def fsGood : FileSys :=
  [(["root.json"], .obj [("$ref", .str "./sub.json")]),
   (["sub.json"], .obj [("x", .num 1)])]

theorem lookupFS_cons_elim {q : FPath} {x : Json} {rest : FileSys} {p : FPath}
    {d : Json}
    (h : lookupFS ((q, x) :: rest) p = some d) :
    (p = q ∧ d = x) ∨ lookupFS rest p = some d := by
  unfold lookupFS at h
  by_cases hq : q = p
  · rw [if_pos hq] at h
    injection h with h
    exact Or.inl ⟨hq.symm, h.symm⟩
  · rw [if_neg hq] at h
    exact Or.inr h

theorem refersTo_empty_acyclic {fs : FileSys} (h : ∀ a b, ¬refersTo fs a b) :
    Acyclic fs := by
  intro p htg
  cases htg with
  | single hedge => exact h _ _ hedge
  | tail htg2 hedge => exact h _ _ hedge

theorem fsOpq_acyclic : Acyclic fsOpq := by
  apply refersTo_empty_acyclic
  intro a b hab
  obtain ⟨d, hlook, hq⟩ := hab
  rcases lookupFS_cons_elim hlook with ⟨hp, hd⟩ | h2
  · subst hp
    subst hd
    rw [show refPaths objOpq (dirOf ["r.json"]) = [] from rfl] at hq
    exact absurd hq (List.not_mem_nil b)
  · exact Option.noConfusion h2

theorem fsGood_edges {a b : FPath} (h : refersTo fsGood a b) :
    a = ["root.json"] ∧ b = ["sub.json"] := by
  obtain ⟨d, hlook, hq⟩ := h
  rcases lookupFS_cons_elim hlook with ⟨hp, hd⟩ | h2
  · subst hp
    subst hd
    rw [show refPaths (.obj [("$ref", .str "./sub.json")]) (dirOf ["root.json"]) =
      [["sub.json"]] from rfl] at hq
    exact ⟨rfl, List.mem_singleton.1 hq⟩
  · rcases lookupFS_cons_elim h2 with ⟨hp, hd⟩ | h3
    · subst hp
      subst hd
      rw [show refPaths (.obj [("x", .num 1)]) (dirOf ["sub.json"]) = [] from rfl] at hq
      exact absurd hq (List.not_mem_nil b)
    · exact Option.noConfusion h3

theorem fsGood_acyclic : Acyclic fsGood := by
  intro p htg
  have hab : ∀ a b, Relation.TransGen (refersTo fsGood) a b →
      a = ["root.json"] ∧ b = ["sub.json"] := by
    intro a b h
    induction h with
    | single hedge => exact fsGood_edges hedge
    | tail htg2 hedge ih => exact ⟨ih.1, (fsGood_edges hedge).2⟩
  obtain ⟨h1, h2⟩ := hab p p htg
  rw [h1] at h2
  exact absurd h2 (by decide)

theorem loadOpq_eval : load_json_with_refs fsOpq 1 ["r.json"] = .ok objOpq := by
  show resolve_refs fsOpq 1
    (.obj [("$ref", .str "http://x"), ("a", .obj [("$ref", .str "./missing.json")])])
    [] = .ok objOpq
  rw [@rv_eq_nonrel fsOpq 1
    [("$ref", .str "http://x"), ("a", .obj [("$ref", .str "./missing.json")])]
    [] "http://x" rfl rfl]
  rfl

theorem loadC5_eval :
    load_json_with_refs fsC5 5 ["r.json"] = .ok (.obj [("v", .num 2)]) := by
  show resolve_refs fsC5 5 (.obj rootC5fields) [] = _
  rw [show (5 : Nat) = 4 + 1 from rfl]
  rw [@rv_eq_relref fsC5 4 rootC5fields [] "./f.json" (.obj [("v", .num 2)]) rfl rfl rfl]
  rw [show dirOf (joinPath [] "./f.json") = ([] : FPath) from rfl]
  rw [@rv_eq_plain fsC5 4 [("v", .num 2)] [] rfl]
  rw [rf_eq_cons,
    rv_eq_scalar ⟨fun _ h => Json.noConfusion h, fun _ h => Json.noConfusion h⟩,
    rf_eq_nil]

theorem loadGood_eval :
    load_json_with_refs fsGood 2 ["root.json"] = .ok (.obj [("x", .num 1)]) := by
  show resolve_refs fsGood 2 (.obj [("$ref", .str "./sub.json")]) [] = _
  rw [show (2 : Nat) = 1 + 1 from rfl]
  rw [@rv_eq_relref fsGood 1 [("$ref", .str "./sub.json")] [] "./sub.json"
    (.obj [("x", .num 1)]) rfl rfl rfl]
  rw [show dirOf (joinPath [] "./sub.json") = ([] : FPath) from rfl]
  rw [@rv_eq_plain fsGood 1 [("x", .num 1)] [] rfl]
  rw [rf_eq_cons,
    rv_eq_scalar ⟨fun _ h => Json.noConfusion h, fun _ h => Json.noConfusion h⟩,
    rf_eq_nil]

/-! ## Claims C4, C5, C6 -/

/-- C4 counterexample: an acyclic file system on which resolution succeeds
but the returned document still contains a mapping with a `$ref` key whose
value begins with `./` — the relative reference nested inside the opaque
reference node survives, refuting "zero remaining relative-reference
nodes". -/
theorem claim_C4_counterexample :
    Acyclic fsOpq ∧
    load_json_with_refs fsOpq 1 ["r.json"] = .ok objOpq ∧
    hasRelRef objOpq = true :=
  ⟨fsOpq_acyclic, loadOpq_eval, by decide⟩

/-- C4 (amended): for every file system whose reference graph is acyclic,
resolving the root terminates — fuel equal to the number of files is never
exhausted — and any returned document contains no relative-reference node
outside the subtrees of opaque (non-relative) reference nodes, which are
returned verbatim. -/
theorem claim_C4 (fs : FileSys) (root : FPath) (hacyc : Acyclic fs) :
    load_json_with_refs fs fs.length root ≠ .error .fuelOut ∧
    (∀ fuel doc, load_json_with_refs fs fuel root = .ok doc →
      cleanJson doc = true) := by
  constructor
  · unfold load_json_with_refs
    cases hroot : lookupFS fs root with
    | none =>
      intro h
      injection h with h
      exact RErr.noConfusion h
    | some data => exact resolve_no_fuelOut hacyc hroot
  · intro fuel doc h
    unfold load_json_with_refs at h
    cases hroot : lookupFS fs root with
    | none =>
      rw [hroot] at h
      exact Except.noConfusion h
    | some data =>
      rw [hroot] at h
      exact resolve_clean fuel data (dirOf root) doc h

theorem claim_C4_witness :
    load_json_with_refs fsGood 2 ["root.json"] ≠ .error .fuelOut ∧
    cleanJson (.obj [("x", .num 1)]) = true :=
  ⟨(claim_C4 fsGood ["root.json"] fsGood_acyclic).1,
   (claim_C4 fsGood ["root.json"] fsGood_acyclic).2 2 _ loadGood_eval⟩

/-- Modelled from the spec for comparison (C5): resolving a mapping "as an
ordinary mapping" — every value resolved in place, all keys kept. -/
def resolveAsPlainMapping (fs : FileSys) (fuel : Nat)
    (fields : List (String × Json)) (base : FPath) : Except RErr Json :=
  match resolve_fields fs fuel fields base with
  | .ok fields2 => .ok (.obj fields2)
  | .error e => .error e

/-- The hop a relative reference makes (extract_modules.py lines 50-60), as a
function of the target path alone — the other keys of the mapping cannot
influence it. -/
def resolveRelRef (fs : FileSys) (fuel : Nat) (p : FPath) : Except RErr Json :=
  match lookupFS fs p with
  | none => .error (.fileNotFound p)
  | some d =>
    match fuel with
    | 0 => .error .fuelOut
    | n + 1 => resolve_refs fs n d (dirOf p)

/-- C5 counterexample: a mapping carrying `$ref` together with another key is
not resolved as an ordinary mapping — the whole mapping is replaced by the
referenced content and the sibling key `extra` is discarded, differing from
the ordinary-mapping resolution of the same fields. -/
theorem claim_C5_counterexample :
    load_json_with_refs fsC5 5 ["r.json"] = .ok (.obj [("v", .num 2)]) ∧
    resolveAsPlainMapping fsC5 5 rootC5fields [] = .ok (.obj rootC5fields) ∧
    Json.obj [("v", .num 2)] ≠ .obj rootC5fields := by
  refine ⟨loadC5_eval, ?_, by decide⟩
  rw [resolveAsPlainMapping.eq_def]
  rw [show rootC5fields =
    ("$ref", Json.str "./f.json") :: [("extra", Json.num 1)] from rfl]
  rw [rf_eq_cons,
    rv_eq_scalar ⟨fun _ h => Json.noConfusion h, fun _ h => Json.noConfusion h⟩,
    rf_eq_cons,
    rv_eq_scalar ⟨fun _ h => Json.noConfusion h, fun _ h => Json.noConfusion h⟩,
    rf_eq_nil]

/-- C5 (amended): a mapping is treated as a reference node whenever it
contains the `$ref` key, regardless of any other keys: with a relative path
the whole mapping is replaced by the hop to the target (a function of the
target path alone, ignoring the other keys), and with a non-relative path the
mapping is returned verbatim. -/
theorem claim_C5 (fs : FileSys) (fuel : Nat) (fields : List (String × Json))
    (base : FPath) (s : String)
    (href : lookupKey fields "$ref" = some (.str s)) :
    ((strStartsWith s "./" || strStartsWith s "../") = true →
      resolve_refs fs fuel (.obj fields) base =
        resolveRelRef fs fuel (joinPath base s)) ∧
    ((strStartsWith s "./" || strStartsWith s "../") = false →
      resolve_refs fs fuel (.obj fields) base = .ok (.obj fields)) := by
  constructor
  · intro hrel
    unfold resolveRelRef
    cases hfs : lookupFS fs (joinPath base s) with
    | none => exact rv_eq_relref_missing href hrel hfs
    | some d =>
      cases fuel with
      | zero => exact rv_eq_relref_fuel0 href hrel hfs
      | succ n => exact rv_eq_relref href hrel hfs
  · intro hrel
    exact rv_eq_nonrel href hrel

theorem claim_C5_witness :
    resolve_refs fsC5 5 (.obj rootC5fields) [] =
      resolveRelRef fsC5 5 (joinPath [] "./f.json") :=
  (claim_C5 fsC5 5 rootC5fields [] "./f.json" rfl).1 rfl

/-- C6 counterexample: a document containing a relative reference node whose
target file does not exist, for which resolution nevertheless succeeds — the
bad reference is nested inside an opaque reference node and is never
followed, refuting "for every document ... resolution fails". -/
theorem claim_C6_counterexample :
    isRelRefNode [("$ref", .str "./missing.json")] = true ∧
    hasRelRef objOpq = true ∧
    lookupFS fsOpq ["missing.json"] = none ∧
    load_json_with_refs fsOpq 1 ["r.json"] = .ok objOpq :=
  ⟨by decide, by decide, rfl, loadOpq_eval⟩

/-- C6 (amended): when resolution follows a relative reference whose target
file does not exist, it fails with a FileNotFound error carrying exactly the
unresolved target path (the base directory joined with the reference string),
and no document is returned; a missing root file likewise fails naming the
root path.  (Relative references nested inside opaque reference nodes are
never followed and do not trigger this failure.) -/
theorem claim_C6 (fs : FileSys) (fuel : Nat) (fields : List (String × Json))
    (base : FPath) (s : String)
    (href : lookupKey fields "$ref" = some (.str s))
    (hrel : (strStartsWith s "./" || strStartsWith s "../") = true)
    (hmiss : lookupFS fs (joinPath base s) = none) :
    resolve_refs fs fuel (.obj fields) base =
      .error (.fileNotFound (joinPath base s)) ∧
    (∀ root, lookupFS fs root = none →
      load_json_with_refs fs fuel root = .error (.fileNotFound root)) := by
  constructor
  · exact rv_eq_relref_missing href hrel hmiss
  · intro root hroot
    unfold load_json_with_refs
    rw [hroot]

theorem claim_C6_witness :
    resolve_refs fsOpq 3 (.obj [("$ref", .str "./missing.json")]) [] =
      .error (.fileNotFound ["missing.json"]) ∧
    load_json_with_refs fsOpq 3 ["nope.json"] = .error (.fileNotFound ["nope.json"]) := by
  have h := claim_C6 fsOpq 3 [("$ref", .str "./missing.json")] [] "./missing.json"
    rfl (by decide) rfl
  have h1 := h.1
  rw [show joinPath ([] : FPath) "./missing.json" = ["missing.json"] from rfl] at h1
  exact ⟨h1, h.2 ["nope.json"] rfl⟩

/-! ## Claim C8 -/

/-- C8: whatever the schema load, the document loads and the external engine
do — including throwing an arbitrary exception — validate_json returns one of
a small closed set of outcomes: success, or a failure message in exactly one
of the four categories (file-not-found, malformed JSON, schema violation,
generic unexpected error).  No exception propagates. -/
theorem claim_C8 (schemaLoad refLoad rawLoad : Except PyExc Json)
    (engine : Json → Json → Except PyExc Unit) (flag : Bool) (json_path : String) :
    validate_json schemaLoad refLoad rawLoad engine flag json_path = (true, none) ∨
    (∃ m, validate_json schemaLoad refLoad rawLoad engine flag json_path =
      (false, some ("File not found: " ++ m))) ∨
    (∃ m, validate_json schemaLoad refLoad rawLoad engine flag json_path =
      (false, some ("Invalid JSON format in " ++ json_path ++ ": " ++ m))) ∨
    (∃ path m, validate_json schemaLoad refLoad rawLoad engine flag json_path =
      (false, some ("Validation error at \x27" ++ validationPath path ++ "\x27: " ++ m))) ∨
    (∃ m, validate_json schemaLoad refLoad rawLoad engine flag json_path =
      (false, some ("Unexpected error: " ++ m))) := by
  simp only [validate_json]
  split
  · exact Or.inl rfl
  · rename_i m heq
    exact Or.inr (Or.inl ⟨m, rfl⟩)
  · rename_i m heq
    exact Or.inr (Or.inr (Or.inl ⟨m, rfl⟩))
  · rename_i path m heq
    exact Or.inr (Or.inr (Or.inr (Or.inl ⟨path, m, rfl⟩)))
  · rename_i m heq
    exact Or.inr (Or.inr (Or.inr (Or.inr ⟨m, rfl⟩)))

end AutoChip
